import Mathlib

/-! The Huffman method (`TNode.h`): shallow embedding and verification.

The C++ program builds a Huffman tree from a table of character counts
(`buildHuffmanTree`), derives the code table (`buildCodes`), packs a text into
bytes (`compress`) and reverses the process (`decode`, `decompress`).

Modelling conventions.

* `char` values are `Char`, `std::string` is `List Char`; bit strings are the
  strings of `'0'` and `'1'` characters the source builds.
* `int` values are `Int`.  The sum `left->freq + right->freq` of two weights is
  taken in 32-bit two's complement (`wrapInt`), which is what the addition of
  two `int` yields on the machine when it overflows; the counters of the
  counting loop stay below `2^31` for every text with fewer than `2^31`
  characters and are not wrapped.
* A `Node*` is a value of `Node`: either `Node.nullptr` or a pointer to an
  object with the four fields of the struct.  The tree owns its children, so
  pointers are modelled by the objects they point to.  `NodeAt` keeps the
  addresses of the objects as well; the functions on `NodeAt` are shown to
  return the trees the functions on `Node` return.
* `std::priority_queue<Node*, vector<Node*>, Compare>` is the binary heap of
  the standard library over its underlying vector (`std::push_heap`,
  `std::pop_heap` as implemented by libstdc++: sift the hole, then sift the
  value up).  Only `Compare`, which reads `freq`, decides the order; addresses
  of nodes never do.
* Loops are structurally recursive functions over a fuel argument that is the
  number of iterations the loop can make at most; the fuel never runs out
  before the loop condition fails.
* A run that reaches undefined behaviour (`top()` of an empty queue, a
  dereferenced null pointer, a read of an uninitialised local) is
  `Outcome.undefined`.
-/

namespace Huffman

/-! ## Data model -/

/-- A value of type `Node*`: `nullptr`, or a pointer to a `Node` object with
fields `ch`, `freq`, `left`, `right`. -/
inductive Node where
  | nullptr : Node
  | mk (ch : Char) (freq : Int) (left right : Node) : Node
deriving DecidableEq, Repr, Inhabited

/-- Result of running a C++ function: it returns a value, or the run reaches
undefined behaviour. -/
inductive Outcome (α : Type) where
  | returns (value : α) : Outcome α
  | undefined : Outcome α
deriving DecidableEq, Repr

/-- Constructor `Node(char character, int frequency)`: both children null. -/
def Node.new (character : Char) (frequency : Int) : Node :=
  Node.mk character frequency Node.nullptr Node.nullptr

/-- Field `p->freq` (only read through non-null pointers). -/
def Node.freq : Node → Int
  | Node.nullptr => 0
  | Node.mk _ f _ _ => f

/-- Field `p->ch` (only read through non-null pointers). -/
def Node.ch : Node → Char
  | Node.nullptr => '0'
  | Node.mk c _ _ _ => c

/-- Field `p->left`. -/
def Node.left : Node → Node
  | Node.nullptr => Node.nullptr
  | Node.mk _ _ l _ => l

/-- Field `p->right`. -/
def Node.right : Node → Node
  | Node.nullptr => Node.nullptr
  | Node.mk _ _ _ r => r

/-- Comparator of the priority queue, `Compare::operator()`:
`l->freq > r->freq`. -/
def Compare (l r : Node) : Bool :=
  decide (l.freq > r.freq)

/-! ## The priority queue (binary heap over a vector) -/

section Heap

variable {α : Type}

/-- Loop of `std::__push_heap(first, holeIndex, topIndex, value, comp)`: while
the hole is below `topIndex` and its parent compares before `value`, the parent
moves into the hole; finally `value` is stored in the hole.  The fuel is the
start index of the hole, which strictly decreases. -/
def push_heap_loop (comp : α → α → Bool) (value : α) (topIndex : Nat) :
    Nat → List α → Nat → List α
  | 0, c, holeIndex => c.set holeIndex value
  | fuel + 1, c, holeIndex =>
    let parent := (holeIndex - 1) / 2
    if holeIndex > topIndex then
      match c.get? parent with
      | some p =>
        if comp p value then
          push_heap_loop comp value topIndex fuel (c.set holeIndex p) parent
        else c.set holeIndex value
      | none => c.set holeIndex value
    else c.set holeIndex value

/-- Call `std::push_heap(c.begin(), c.end(), comp)`: the last element is the
value to sift up from the last index. -/
def push_heap (comp : α → α → Bool) (c : List α) : List α :=
  match c.getLast? with
  | some value => push_heap_loop comp value 0 (c.length - 1) c (c.length - 1)
  | none => c

/-- First loop of `std::__adjust_heap`: while the hole has two children, the
child that does not compare before its sibling moves into the hole.  Returns
the vector, `holeIndex` and `secondChild`. -/
def adjust_heap_loop (comp : α → α → Bool) (len : Nat) :
    Nat → List α → Nat → Nat → List α × Nat × Nat
  | 0, c, holeIndex, secondChild => (c, holeIndex, secondChild)
  | fuel + 1, c, holeIndex, secondChild =>
    if secondChild < (len - 1) / 2 then
      let secondChild := 2 * (secondChild + 1)
      match c.get? secondChild, c.get? (secondChild - 1) with
      | some x, some y =>
        if comp x y then
          adjust_heap_loop comp len fuel (c.set holeIndex y) (secondChild - 1) (secondChild - 1)
        else
          adjust_heap_loop comp len fuel (c.set holeIndex x) secondChild secondChild
      | _, _ => (c, holeIndex, secondChild)
    else (c, holeIndex, secondChild)

/-- Call `std::__adjust_heap(first, holeIndex, len, value, comp)` for
`len ≥ 1`: the hole sinks to the bottom, a single left child at the end of an
even-length range moves up, and `value` is sifted up from the hole. -/
def adjust_heap (comp : α → α → Bool) (c : List α) (holeIndex len : Nat) (value : α) :
    List α :=
  let topIndex := holeIndex
  let s := adjust_heap_loop comp len len c holeIndex holeIndex
  let c := s.1
  let holeIndex := s.2.1
  let secondChild := s.2.2
  if len % 2 = 0 ∧ secondChild = (len - 2) / 2 then
    let secondChild := 2 * (secondChild + 1)
    match c.get? (secondChild - 1) with
    | some x =>
      push_heap_loop comp value topIndex (secondChild - 1) (c.set holeIndex x) (secondChild - 1)
    | none => push_heap_loop comp value topIndex holeIndex c holeIndex
  else push_heap_loop comp value topIndex holeIndex c holeIndex

/-- Call `std::pop_heap(c.begin(), c.end(), comp)`: with more than one element,
the last element is taken out as `value`, the first element is stored in the
last place and the range without the last place is adjusted from the root. -/
def pop_heap (comp : α → α → Bool) (c : List α) : List α :=
  if c.length > 1 then
    let last := c.length - 1
    match c.get? last, c.get? 0 with
    | some value, some first => adjust_heap comp (c.set last first) 0 last value
    | _, _ => c
  else c

end Heap

/-- Method `minHeap.push(x)`: `c.push_back(x)` then `push_heap`. -/
def push (c : List Node) (x : Node) : List Node :=
  push_heap Compare (c ++ [x])

/-- Method `minHeap.pop()`: `pop_heap` then `c.pop_back()`. -/
def pop (c : List Node) : List Node :=
  (pop_heap Compare c).dropLast

/-- Method `minHeap.top()`: `c.front()`, undefined on an empty queue (`none`). -/
def top (c : List Node) : Option Node :=
  c.head?

/-! ## buildHuffmanTree and buildCodes -/

/-- The `int` an expression of mathematical value `x` evaluates to in 32-bit
two's complement: `x` itself between `-2^31` and `2^31 - 1`, wrapped around
otherwise. -/
def wrapInt (x : Int) : Int :=
  (x + 2147483648) % 4294967296 - 2147483648

/-- The `while (minHeap.size() > 1)` loop of `buildHuffmanTree`: the two tops
are popped and pushed back under a new node `'0'` whose `freq` is their `int`
sum.  Every iteration shrinks the queue by one, so the queue size is enough
fuel. -/
def mergeLoop : Nat → List Node → List Node
  | 0, minHeap => minHeap
  | fuel + 1, minHeap =>
    if minHeap.length > 1 then
      match top minHeap with
      | none => minHeap
      | some left =>
        let minHeap1 := pop minHeap
        match top minHeap1 with
        | none => minHeap
        | some right =>
          let minHeap2 := pop minHeap1
          let newNode := Node.mk '0' (wrapInt (left.freq + right.freq)) left right
          mergeLoop fuel (push minHeap2 newNode)
    else minHeap

/-- The first loop of `buildHuffmanTree`: one leaf per visited pair is pushed,
in iteration order of the container. -/
def fillHeap (frequency : List (Char × Int)) : List Node :=
  frequency.foldl (fun minHeap pair => push minHeap (Node.new pair.1 pair.2)) []

/-- Function `buildHuffmanTree(frequency)`, on the sequence of pairs the
range-for over the container visits.  The final `minHeap.top()` is undefined
when the queue is empty. -/
def buildHuffmanTree (frequency : List (Char × Int)) : Outcome Node :=
  let minHeap := fillHeap frequency
  let minHeap := mergeLoop minHeap.length minHeap
  match top minHeap with
  | some root => Outcome.returns root
  | none => Outcome.undefined

/-- A `std::map<char, string>`, as the list of its bindings (one per key). -/
abbrev CodeMap := List (Char × List Char)

/-- Assignment `huffmanCodes[key] = str`: the binding of `key` is replaced. -/
def CodeMap.assign (m : CodeMap) (key : Char) (str : List Char) : CodeMap :=
  (key, str) :: m.filter (fun p => p.1 != key)

/-- Read access `huffmanCodes[key]`: the bound string, or the empty string a
missing key is bound to. -/
def CodeMap.at (m : CodeMap) (key : Char) : List Char :=
  (m.lookup key).getD []

/-- Function `buildCodes(root, str, huffmanCodes)`, returning the updated map:
nothing for a null pointer, an assignment at a node without children, and
otherwise the left subtree with `str + "0"` followed by the right subtree with
`str + "1"`. -/
def buildCodes : Node → List Char → CodeMap → CodeMap
  | Node.nullptr, _, huffmanCodes => huffmanCodes
  | Node.mk ch _ left right, str, huffmanCodes =>
    if left = Node.nullptr ∧ right = Node.nullptr then
      huffmanCodes.assign ch str
    else
      buildCodes right (str ++ ['1']) (buildCodes left (str ++ ['0']) huffmanCodes)

/-! ## compress -/

/-- Statement `frequency[key]++` on the `unordered_map<char, int>`: a missing
key is inserted with value `0` before the increment. -/
def increment : List (Char × Int) → Char → List (Char × Int)
  | [], key => [(key, 1)]
  | (k, v) :: rest, key =>
    if k = key then (k, v + 1) :: rest else (k, v) :: increment rest key

/-- First loop of `compress`: every character of the text is counted, a space
under the key `'_'`. -/
def countFrequency (text : List Char) : List (Char × Int) :=
  text.foldl (fun frequency ch =>
    if ch = ' ' then increment frequency '_' else increment frequency ch) []

/-- Decimal digits of a natural number, most significant first; the fuel is
the number itself. -/
def showNatAux : Nat → Nat → List Char
  | 0, n => [Char.ofNat (48 + n % 10)]
  | fuel + 1, n =>
    if n < 10 then [Char.ofNat (48 + n)]
    else showNatAux fuel (n / 10) ++ [Char.ofNat (48 + n % 10)]

/-- Output `outputFile << n` of an `int`. -/
def showInt (n : Int) : List Char :=
  if n < 0 then '-' :: showNatAux n.natAbs n.natAbs else showNatAux n.toNat n.toNat

/-- The header lines `outputFile << pair.first << " " << pair.second << "\n"`,
one per pair of the table in iteration order. -/
def writeEntries : List (Char × Int) → List Char
  | [] => []
  | pair :: rest => [pair.1] ++ [' '] ++ showInt pair.2 ++ ['\n'] ++ writeEntries rest

/-- Second loop over the text: the codes of its characters are appended, the
code of `'_'` for a space. -/
def encodeText (huffmanCodes : CodeMap) : List Char → List Char
  | [] => []
  | ch :: rest =>
    huffmanCodes.at (if ch = ' ' then '_' else ch) ++ encodeText huffmanCodes rest

/-- Value `bitset<8>(str).to_ulong()` of a string of at most eight `'0'` and
`'1'` characters, the first character being the most significant bit. -/
def bitsetValue (str : List Char) : Nat :=
  str.foldl (fun n bit => 2 * n + (if bit = '1' then 1 else 0)) 0

/-- Output `outputFile << reinterpret_cast<const char*>(&n)` for `n < 256` on a
little-endian machine: the bytes of `n` are written as a C string, which is the
low byte when it is not zero and nothing when it is zero. -/
def writeCString (n : Nat) : List Char :=
  if n % 256 = 0 then [] else [Char.ofNat (n % 256)]

/-- Loop `for (size_t i = 0; i <= encodedString.size(); i += 8)` writing
`encodedString.substr(i, 8)` as a byte; the fuel is the number of values `i`
takes, `size / 8 + 1`. -/
def writeBytes (encodedString : List Char) : Nat → Nat → List Char
  | 0, _ => []
  | fuel + 1, i =>
    if i ≤ encodedString.length then
      writeCString (bitsetValue ((encodedString.drop i).take 8))
        ++ writeBytes encodedString fuel (i + 8)
    else []

/-- The padded bit string of `compress`: `padding = 8 - size % 8` characters
`'0'` are appended unless `padding` is 8. -/
def padBits (encodedString : List Char) : List Char :=
  let padding := 8 - encodedString.length % 8
  if padding ≠ 8 then encodedString ++ List.replicate padding '0' else encodedString

/-- The number `8 - padding` that `compress` writes on the line before the
packed bytes. -/
def persistedCount (encodedString : List Char) : Int :=
  let padding : Int := 8 - ((encodedString.length % 8 : Nat) : Int)
  8 - padding

/-- The part of `compress` after the counting loop, for the pairs of the
`unordered_map` in the order its iteration visits them: tree, code table,
header, encoded text, padding, count line and packed bytes. -/
def compressWith (frequency : List (Char × Int)) (text : List Char) : Outcome (List Char) :=
  match buildHuffmanTree frequency with
  | Outcome.undefined => Outcome.undefined
  | Outcome.returns root =>
    let huffmanCodes := buildCodes root [] []
    let header := showInt frequency.length ++ ['\n'] ++ writeEntries frequency
    let encodedString := encodeText huffmanCodes text
    let padded := padBits encodedString
    Outcome.returns
      (header ++ showInt (persistedCount encodedString) ++ ['\n']
        ++ writeBytes padded (padded.length / 8 + 1) 0)

/-- Function `compress`, from the content of the input file to the content of
the output file.  `order` is the order in which the `unordered_map` is
iterated (the same for the tree and for the header, the map being unchanged in
between). -/
def compress (order : List (Char × Int) → List (Char × Int)) (text : List Char) :
    Outcome (List Char) :=
  compressWith (order (countFrequency text)) text

/-! ## decode and decompress -/

/-- Loop of `decode(root, encodedString)`: `currentNode` steps to its left child
on `'0'` and to its right child otherwise; at a node without children the
character is appended (a space for `'_'`) and the walk restarts at the root.
Reading a field through a null pointer is undefined. -/
def decodeLoop (root : Node) : List Char → Node → List Char → Outcome (List Char)
  | [], _, decodedString => Outcome.returns decodedString
  | bit :: rest, currentNode, decodedString =>
    match currentNode with
    | Node.nullptr => Outcome.undefined
    | Node.mk _ _ l r =>
      match (if bit = '0' then l else r) with
      | Node.nullptr => Outcome.undefined
      | Node.mk ch f l2 r2 =>
        if l2 = Node.nullptr ∧ r2 = Node.nullptr then
          decodeLoop root rest root (decodedString ++ [if ch = '_' then ' ' else ch])
        else decodeLoop root rest (Node.mk ch f l2 r2) decodedString

/-- Function `decode(root, encodedString)`. -/
def decode (root : Node) (encodedString : List Char) : Outcome (List Char) :=
  decodeLoop root encodedString root []

/-- State of the input stream: the unread characters and the fail bit. -/
structure IStream where
  rest : List Char
  fail : Bool
deriving DecidableEq, Repr

/-- White space of the classic locale, skipped by formatted input. -/
def isSpace (c : Char) : Bool :=
  c = ' ' || c = '\t' || c = '\n' || c = Char.ofNat 11 || c = Char.ofNat 12 || c = '\r'

/-- Leading white space is skipped. -/
def skipSpace : List Char → List Char
  | [] => []
  | c :: cs => if isSpace c then skipSpace cs else c :: cs

/-- Extraction `inputFile >> ch` of a `char`: white space is skipped and one
character is read; at the end of the input, or with the fail bit set, the
variable is left as it was (`none`). -/
def readChar (s : IStream) : IStream × Option Char :=
  if s.fail then (s, none)
  else
    match skipSpace s.rest with
    | [] => ({ rest := [], fail := true }, none)
    | c :: cs => ({ rest := cs, fail := false }, some c)

/-- Extraction `inputFile >> n` of an `int`: white space is skipped, then an
optional sign and decimal digits are read.  Without digits the value 0 is
stored and the fail bit is set; a value out of range is clamped with the fail
bit set; when nothing can be attempted the variable is left as it was. -/
def readInt (s : IStream) : IStream × Option Int :=
  if s.fail then (s, none)
  else
    match skipSpace s.rest with
    | [] => ({ rest := [], fail := true }, none)
    | c :: cs =>
      let negative := decide (c = '-')
      let body := if c = '-' ∨ c = '+' then cs else c :: cs
      let digits := body.takeWhile Char.isDigit
      let rest := body.dropWhile Char.isDigit
      if digits = [] then ({ rest := rest, fail := true }, some 0)
      else
        let magnitude : Nat := digits.foldl (fun n d => 10 * n + (d.toNat - 48)) 0
        let value : Int := if negative then - (magnitude : Int) else magnitude
        if value > 2147483647 then ({ rest := rest, fail := true }, some 2147483647)
        else if value < -2147483648 then ({ rest := rest, fail := true }, some (-2147483648))
        else ({ rest := rest, fail := false }, some value)

/-- Loop reading `uniqueCharsCount` pairs `inputFile >> ch; inputFile >> freq`
into the vector.  A variable that no extraction stored into is uninitialised
when it is copied into the pair. -/
def readEntries : Nat → IStream → Outcome (IStream × List (Char × Int))
  | 0, s => Outcome.returns (s, [])
  | n + 1, s =>
    match readChar s with
    | (_, none) => Outcome.undefined
    | (s1, some ch) =>
      match readInt s1 with
      | (_, none) => Outcome.undefined
      | (s2, some freq) =>
        match readEntries n s2 with
        | Outcome.undefined => Outcome.undefined
        | Outcome.returns (s3, frequency) => Outcome.returns (s3, (ch, freq) :: frequency)

/-- String `bitset<8>(byteString).to_string()`: the eight low bits of the
character, most significant first. -/
def byteBits (byteString : Char) : List Char :=
  (List.range 8).map (fun k => if (byteString.toNat / 2 ^ (7 - k)) % 2 = 1 then '1' else '0')

/-- Loop `while (inputFile.get(byteString))`: nothing is read with the fail bit
set; bytes `'\0'` and `'\n'` are skipped, every other byte contributes its
eight bits. -/
def readBits (s : IStream) : List Char :=
  if s.fail then []
  else
    (s.rest.filter (fun byteString => !(byteString = Char.ofNat 0 || byteString = '\n'))).flatMap
      byteBits

/-- Expression `encodedString.substr(0, encodedString.size() - padding)`: the
subtraction is made in `size_t`, so a `padding` that is negative or larger than
the size wraps to a count beyond the end and the whole string is kept. -/
def stripPadding (encodedString : List Char) (padding : Int) : List Char :=
  if 0 ≤ padding ∧ padding ≤ encodedString.length then
    encodedString.take (encodedString.length - padding.toNat)
  else encodedString

/-- Function `decompress`, from the content of the input file to the content
written to the output file. -/
def decompress (file : List Char) : Outcome (List Char) :=
  let s0 : IStream := { rest := file, fail := false }
  let r := readInt s0
  let uniqueCharsCount : Int := r.2.getD 0
  match readEntries uniqueCharsCount.toNat r.1 with
  | Outcome.undefined => Outcome.undefined
  | Outcome.returns (s1, frequency) =>
    match buildHuffmanTree frequency with
    | Outcome.undefined => Outcome.undefined
    | Outcome.returns root =>
      let r2 := readInt s1
      let padding : Int := r2.2.getD 0
      let encodedString := stripPadding (readBits r2.1) padding
      decode root encodedString

/-! ## buildHuffmanTree on objects at addresses

The same functions with the identity of the objects kept: every `new Node`
yields an object at an address of its own, the queue holds the pointers, and
the template is instantiated for either container. -/

/-- A `Node*` with the addresses kept: `nullptr`, or the address of a `Node`
object together with its fields. -/
inductive NodeAt where
  | nullptr : NodeAt
  | obj (address : Nat) (ch : Char) (freq : Int) (left right : NodeAt) : NodeAt
deriving DecidableEq, Repr

/-- Field `p->freq` of an object at an address. -/
def NodeAt.freq : NodeAt → Int
  | NodeAt.nullptr => 0
  | NodeAt.obj _ _ f _ _ => f

/-- The tree a pointer leads to, the addresses forgotten. -/
def NodeAt.tree : NodeAt → Node
  | NodeAt.nullptr => Node.nullptr
  | NodeAt.obj _ ch f l r => Node.mk ch f l.tree r.tree

/-- The comparator `Compare::operator()` on the pointers: `l->freq > r->freq`;
the addresses are not compared. -/
def CompareAt (l r : NodeAt) : Bool :=
  decide (l.freq > r.freq)

/-- A `std::unordered_map<char, int>`, given by its elements in the order its
iteration visits them. -/
structure UnorderedMap where
  elements : List (Char × Int)

/-- A `std::vector<pair<char, int>>`. -/
structure PairVector where
  data : List (Char × Int)

/-- The containers `T` of the template `buildHuffmanTree<T>`: the pairs the
loop `for (const auto& pair : frequency)` visits, in order. -/
class PairRange (T : Type) where
  pairs : T → List (Char × Int)

instance instPairRangeUnorderedMap : PairRange UnorderedMap where
  pairs := UnorderedMap.elements

instance instPairRangePairVector : PairRange PairVector where
  pairs := PairVector.data

/-- The first loop of `buildHuffmanTree` on pointers: the `k`-th `new Node` of
the run yields the address `alloc k`. -/
def fillHeapAt (alloc : Nat → Nat) : List (Char × Int) → Nat → List NodeAt → List NodeAt
  | [], _, minHeap => minHeap
  | pair :: rest, allocated, minHeap =>
    fillHeapAt alloc rest (allocated + 1)
      (push_heap CompareAt
        (minHeap ++ [NodeAt.obj (alloc allocated) pair.1 pair.2 NodeAt.nullptr NodeAt.nullptr]))

/-- The merge loop of `buildHuffmanTree` on pointers; `allocated` counts the
objects made so far. -/
def mergeLoopAt (alloc : Nat → Nat) : Nat → Nat → List NodeAt → List NodeAt
  | 0, _, minHeap => minHeap
  | fuel + 1, allocated, minHeap =>
    if minHeap.length > 1 then
      match minHeap.head? with
      | none => minHeap
      | some left =>
        let minHeap1 := (pop_heap CompareAt minHeap).dropLast
        match minHeap1.head? with
        | none => minHeap
        | some right =>
          let minHeap2 := (pop_heap CompareAt minHeap1).dropLast
          let newNode :=
            NodeAt.obj (alloc allocated) '0' (wrapInt (left.freq + right.freq)) left right
          mergeLoopAt alloc fuel (allocated + 1) (push_heap CompareAt (minHeap2 ++ [newNode]))
    else minHeap

/-- The template `buildHuffmanTree<T>(frequency)` on pointers, for a run whose
allocations yield the addresses `alloc 0`, `alloc 1`, ... -/
def buildHuffmanTreeAt {T : Type} [PairRange T] (alloc : Nat → Nat) (frequency : T) :
    Outcome NodeAt :=
  let minHeap := fillHeapAt alloc (PairRange.pairs frequency) 0 []
  let minHeap := mergeLoopAt alloc minHeap.length (PairRange.pairs frequency).length minHeap
  match minHeap.head? with
  | some root => Outcome.returns root
  | none => Outcome.undefined

/-- Function `buildCodes` on pointers. -/
def buildCodesAt : NodeAt → List Char → CodeMap → CodeMap
  | NodeAt.nullptr, _, huffmanCodes => huffmanCodes
  | NodeAt.obj _ ch _ left right, str, huffmanCodes =>
    if left = NodeAt.nullptr ∧ right = NodeAt.nullptr then
      huffmanCodes.assign ch str
    else
      buildCodesAt right (str ++ ['1']) (buildCodesAt left (str ++ ['0']) huffmanCodes)

/-! ## Notions used to state the properties -/

/-- The entries `(ch, freq)` of the nodes without children, from left to
right. -/
def Node.leaves : Node → List (Char × Int)
  | Node.nullptr => []
  | Node.mk ch f l r =>
    if l = Node.nullptr ∧ r = Node.nullptr then [(ch, f)] else l.leaves ++ r.leaves

/-- The character of the node without children that the path `p` leads to from
this node, a step to the left child being written `'0'` and a step to the
right child `'1'`; `none` when the path leads nowhere or stops at a node with
a child. -/
def Node.leafAt : Node → List Char → Option Char
  | Node.nullptr, _ => none
  | Node.mk ch _ l r, [] => if l = Node.nullptr ∧ r = Node.nullptr then some ch else none
  | Node.mk _ _ l r, b :: p =>
    if l = Node.nullptr ∧ r = Node.nullptr then none
    else if b = '0' then l.leafAt p
    else if b = '1' then r.leafAt p
    else none

/-- Weighted path length below this node when it sits at depth `depth`: the
sum over the nodes without children of `freq` times their depth. -/
def Node.wpl : Node → Nat → Int
  | Node.nullptr, _ => 0
  | Node.mk _ f l r, depth =>
    if l = Node.nullptr ∧ r = Node.nullptr then f * depth
    else l.wpl (depth + 1) + r.wpl (depth + 1)

/-- Sum of the `freq` fields of the nodes without children. -/
def Node.weight (t : Node) : Int :=
  (t.leaves.map Prod.snd).sum

/-- The nodes without children, as fresh leaf nodes, with their depths when
this node sits at depth `depth`. -/
def Node.depths : Node → Nat → List (Node × Nat)
  | Node.nullptr, _ => []
  | Node.mk ch f l r, depth =>
    if l = Node.nullptr ∧ r = Node.nullptr then [(Node.new ch f, depth)]
    else l.depths (depth + 1) ++ r.depths (depth + 1)

/-- Every node has either no child or two children, and the pointer is not
null. -/
def Node.Full : Node → Prop
  | Node.nullptr => False
  | Node.mk _ _ l r => (l = Node.nullptr ∧ r = Node.nullptr) ∨ (l.Full ∧ r.Full)

/-- Weights of a tree as the merge loop computes them: the `freq` of every node
with two children is the `int` sum (`wrapInt`) of the `freq` of the two. -/
def Node.IntSums : Node → Prop
  | Node.nullptr => True
  | Node.mk _ f l r =>
    (l = Node.nullptr ∧ r = Node.nullptr) ∨
    (l.IntSums ∧ r.IntSums ∧ f = wrapInt (l.freq + r.freq))

/-- Shape and weights of a tree without overflow: the pointer is not null, and
every node has either no child or two children, with `freq` the sum of the
`freq` of the children in the second case. -/
def Node.WellFormed : Node → Prop
  | Node.nullptr => False
  | Node.mk _ f l r =>
    (l = Node.nullptr ∧ r = Node.nullptr) ∨
    (l.WellFormed ∧ r.WellFormed ∧ f = l.freq + r.freq)

/-- The node `currentNode` of `decode` stands at when the loop has consumed the
bits, starting from the given node: the walk of `decodeLoop` without the
output string. -/
def currentNodeAfter (root : Node) : List Char → Node → Outcome Node
  | [], currentNode => Outcome.returns currentNode
  | bit :: rest, currentNode =>
    match currentNode with
    | Node.nullptr => Outcome.undefined
    | Node.mk _ _ l r =>
      match (if bit = '0' then l else r) with
      | Node.nullptr => Outcome.undefined
      | Node.mk ch f l2 r2 =>
        if l2 = Node.nullptr ∧ r2 = Node.nullptr then currentNodeAfter root rest root
        else currentNodeAfter root rest (Node.mk ch f l2 r2)

/-- Heap order of the first `len` places of a vector, for a comparator that
compares keys: no element has a key below the key of its parent. -/
def IsHeap {α : Type} (key : α → Int) (l : List α) (len : Nat) : Prop :=
  ∀ i x p, 0 < i → i < len → l[i]? = some x → l[(i - 1) / 2]? = some p → key p ≤ key x

/-- Heap order of the first `len` places except at the links that touch the
place `hole`. -/
def HeapAround {α : Type} (key : α → Int) (l : List α) (len hole : Nat) : Prop :=
  ∀ i x p, 0 < i → i < len → i ≠ hole → (i - 1) / 2 ≠ hole →
    l[i]? = some x → l[(i - 1) / 2]? = some p → key p ≤ key x

/-- The children of the place `hole` have keys not below `b`. -/
def HoleChildren {α : Type} (key : α → Int) (l : List α) (len hole : Nat) (b : Int) : Prop :=
  ∀ i x, 0 < i → i < len → (i - 1) / 2 = hole → l[i]? = some x → b ≤ key x

/-- Kraft sum of a list of depths. -/
def kraft (ds : List Nat) : ℚ :=
  (ds.map (fun d => (1 / 2 : ℚ) ^ d)).sum

/-- Sum of weight times depth over a list of items with depths. -/
def wsum {α : Type} (w : α → Int) (ps : List (α × Nat)) : Int :=
  (ps.map (fun p => w p.1 * (p.2 : Int))).sum

/-! ## The binary heap keeps its order and its elements -/

theorem perm_cons_set {α : Type} (v : α) : ∀ (l : List α) (i : Nat) (x : α),
    l[i]? = some x → (v :: l).Perm (x :: l.set i v)
  | [], i, x, h => by simp at h
  | a :: l, 0, x, h => by
    simp at h; subst h; simp [List.set]; exact List.Perm.swap _ _ _
  | a :: l, i + 1, x, h => by
    simp at h
    have ih := perm_cons_set v l i x h
    simp only [List.set]
    exact ((List.Perm.swap a v l).trans (ih.cons a)).trans (List.Perm.swap x a _)

theorem perm_set_move {α : Type} (l : List α) (i j : Nat) (x y v : α)
    (hi : l[i]? = some x) (hj : l[j]? = some y) (hij : i ≠ j) :
    ((l.set i y).set j v).Perm (l.set i v) := by
  have hd : (l.set i y)[j]? = some y := by rw [List.getElem?_set_ne hij]; exact hj
  have h1 := perm_cons_set v (l.set i y) j y hd
  have h2 := perm_cons_set y l i x hi
  have h3 := perm_cons_set v l i x hi
  have h4 : (x :: y :: (l.set i y).set j v).Perm (x :: y :: l.set i v) :=
    ((h1.symm).cons x).trans ((List.Perm.swap _ _ _).trans (((h2.symm).cons v).trans
      ((List.Perm.swap _ _ _).trans ((h3.cons y).trans (List.Perm.swap _ _ _)))))
  exact (h4.cons_inv).cons_inv



theorem heap_fill {α : Type} (key : α → Int) (value : α) (len : Nat) (l : List α) (hole : Nat)
    (hl : hole < l.length)
    (hA : HeapAround key l len hole) (hB : HoleChildren key l len hole (key value))
    (hC : 0 < hole → ∀ p, l[(hole - 1) / 2]? = some p → key p ≤ key value) :
    IsHeap key (l.set hole value) len := by
  intro i x p hi hilen hx hp
  by_cases h1 : i = hole
  · subst h1
    have hne : i ≠ (i - 1) / 2 := by omega
    rw [List.getElem?_set_self hl] at hx
    rw [List.getElem?_set_ne hne] at hp
    cases hx
    exact hC hi p hp
  · rw [List.getElem?_set_ne (Ne.symm h1)] at hx
    by_cases h2 : (i - 1) / 2 = hole
    · rw [h2, List.getElem?_set_self hl] at hp
      cases hp
      exact hB i x hi hilen h2 hx
    · rw [List.getElem?_set_ne (Ne.symm h2)] at hp
      exact hA i x p hi hilen h1 h2 hx hp

theorem push_heap_loop_spec {α : Type} (key : α → Int) (comp : α → α → Bool)
    (hcomp : ∀ x y, comp x y = decide (key y < key x)) (value : α) (len : Nat) :
    ∀ (fuel : Nat) (l : List α) (hole : Nat), hole ≤ fuel → hole < len → len ≤ l.length →
      HeapAround key l len hole → HoleChildren key l len hole (key value) →
      (0 < hole → ∀ p, l[(hole - 1) / 2]? = some p → HoleChildren key l len hole (key p)) →
      IsHeap key (push_heap_loop comp value 0 fuel l hole) len ∧
      (push_heap_loop comp value 0 fuel l hole).Perm (l.set hole value) ∧
      ∀ j, len ≤ j → (push_heap_loop comp value 0 fuel l hole)[j]? = l[j]? := by
  intro fuel
  induction fuel with
  | zero =>
    intro l hole hf hlen hll hA hB _
    have h0 : hole = 0 := by omega
    subst h0
    simp only [push_heap_loop]
    refine ⟨heap_fill key value len l 0 (by omega) hA hB (by intro h; omega), List.Perm.refl _, ?_⟩
    intro j hj
    exact List.getElem?_set_ne (by omega)
  | succ fuel ih =>
    intro l hole hf hlen hll hA hB hG
    have fill : (0 < hole → ∀ p, l[(hole - 1) / 2]? = some p → key p ≤ key value) →
        IsHeap key (l.set hole value) len ∧ (l.set hole value).Perm (l.set hole value) ∧
        ∀ j, len ≤ j → (l.set hole value)[j]? = l[j]? := by
      intro hC
      refine ⟨heap_fill key value len l hole (by omega) hA hB hC, List.Perm.refl _, ?_⟩
      intro j hj
      exact List.getElem?_set_ne (by omega)
    simp only [push_heap_loop]
    by_cases hpos : hole > 0
    · rw [if_pos hpos]
      have hpar : (hole - 1) / 2 < l.length := by omega
      obtain ⟨p, hp⟩ : ∃ p, l[(hole - 1) / 2]? = some p :=
        ⟨l[(hole - 1) / 2], List.getElem?_eq_getElem hpar⟩
      obtain ⟨x0, hx0⟩ : ∃ x0, l[hole]? = some x0 :=
        ⟨l[hole], List.getElem?_eq_getElem (by omega)⟩
      rw [List.get?_eq_getElem?, hp]
      simp only
      by_cases hc : comp p value = true
      · rw [if_pos hc]
        have hlt : key value < key p := by
          rw [hcomp] at hc; exact of_decide_eq_true hc
        have hne : hole ≠ (hole - 1) / 2 := by omega
        have hA2 : HeapAround key (l.set hole p) len ((hole - 1) / 2) := by
          intro i x q hi hilen h1 h2 hx hq
          have h3 : i ≠ hole := by
            intro h; subst h; exact h2 rfl
          rw [List.getElem?_set_ne (Ne.symm h3)] at hx
          by_cases h4 : (i - 1) / 2 = hole
          · rw [h4, List.getElem?_set_self (by omega)] at hq
            cases hq
            exact hG hpos p hp i x hi hilen h4 hx
          · rw [List.getElem?_set_ne (Ne.symm h4)] at hq
            exact hA i x q hi hilen h3 h4 hx hq
        have hkey : ∀ i x, 0 < i → i < len → (i - 1) / 2 = (hole - 1) / 2 →
            (l.set hole p)[i]? = some x → key p ≤ key x := by
          intro i x hi hilen h1 hx
          by_cases h3 : i = hole
          · subst h3
            rw [List.getElem?_set_self (by omega)] at hx
            cases hx; exact le_refl _
          · rw [List.getElem?_set_ne (Ne.symm h3)] at hx
            have h4 : (i - 1) / 2 ≠ hole := by omega
            rw [← h1] at hp
            exact hA i x p hi hilen h3 h4 hx hp
        have hB2 : HoleChildren key (l.set hole p) len ((hole - 1) / 2) (key value) := by
          intro i x hi hilen h1 hx
          exact le_trans (le_of_lt hlt) (hkey i x hi hilen h1 hx)
        have hG2 : 0 < (hole - 1) / 2 → ∀ q, (l.set hole p)[((hole - 1) / 2 - 1) / 2]? = some q →
            HoleChildren key (l.set hole p) len ((hole - 1) / 2) (key q) := by
          intro hpp q hq i x hi hilen h1 hx
          rw [List.getElem?_set_ne (by omega)] at hq
          have h5 : key q ≤ key p :=
            hA ((hole - 1) / 2) p q hpp (by omega) (Ne.symm hne) (by omega) hp hq
          exact le_trans h5 (hkey i x hi hilen h1 hx)
        have hlen2 : len ≤ (l.set hole p).length := by rw [List.length_set]; exact hll
        obtain ⟨r1, r2, r3⟩ := ih (l.set hole p) ((hole - 1) / 2) (by omega) (by omega) hlen2
          hA2 hB2 hG2
        refine ⟨r1, r2.trans (perm_set_move l hole ((hole - 1) / 2) x0 p value hx0 hp hne), ?_⟩
        intro j hj
        rw [r3 j hj]
        exact List.getElem?_set_ne (by omega)
      · rw [if_neg hc]
        apply fill
        intro _ q hq
        rw [hp] at hq; cases hq
        rw [hcomp] at hc
        have := of_decide_eq_false (by simpa using hc : decide (key value < key p) = false)
        exact not_lt.mp this
    · rw [if_neg hpos]
      apply fill
      intro h; omega



theorem sink_step {α : Type} (key : α → Int) (len : Nat) (l : List α) (hole k : Nat) (z x0 : α)
    (hk0 : 0 < k) (hkp : (k - 1) / 2 = hole) (hklen : k < len) (hll : len ≤ l.length)
    (hz : l[k]? = some z) (hx0 : l[hole]? = some x0)
    (hA : HeapAround key l len hole)
    (hG : 0 < hole → ∀ p, l[(hole - 1) / 2]? = some p → HoleChildren key l len hole (key p))
    (hmin : HoleChildren key l len hole (key z)) :
    HeapAround key (l.set hole z) len k ∧
    (0 < k → ∀ p, (l.set hole z)[(k - 1) / 2]? = some p →
      HoleChildren key (l.set hole z) len k (key p)) ∧
    ∀ v, ((l.set hole z).set k v).Perm (l.set hole v) := by
  have hhl : hole < l.length := by omega
  have hne : hole ≠ k := by omega
  refine ⟨?_, ?_, ?_⟩
  · intro i x q hi hilen h1 h2 hx hq
    by_cases h3 : i = hole
    · subst h3
      rw [List.getElem?_set_self hhl] at hx
      cases hx
      rw [List.getElem?_set_ne (by omega)] at hq
      exact hG hi q hq k z hk0 hklen hkp hz
    · rw [List.getElem?_set_ne (Ne.symm h3)] at hx
      by_cases h4 : (i - 1) / 2 = hole
      · rw [h4, List.getElem?_set_self hhl] at hq
        cases hq
        exact hmin i x hi hilen h4 hx
      · rw [List.getElem?_set_ne (Ne.symm h4)] at hq
        exact hA i x q hi hilen h3 h4 hx hq
  · intro _ p hp i x hi hilen h1 hx
    rw [hkp, List.getElem?_set_self hhl] at hp
    cases hp
    rw [List.getElem?_set_ne (by omega)] at hx
    rw [← h1] at hz
    exact hA i x z hi hilen (by omega) (by omega) hx hz
  · intro v
    exact perm_set_move l hole k x0 z v hx0 hz hne

theorem adjust_heap_loop_spec {α : Type} (key : α → Int) (comp : α → α → Bool)
    (hcomp : ∀ x y, comp x y = decide (key y < key x)) (len : Nat) :
    ∀ (fuel : Nat) (l : List α) (hole : Nat), len ≤ fuel + hole → hole < len → len ≤ l.length →
      HeapAround key l len hole →
      (0 < hole → ∀ p, l[(hole - 1) / 2]? = some p → HoleChildren key l len hole (key p)) →
      ∃ r h, adjust_heap_loop comp len fuel l hole hole = (r, h, h) ∧
        h < len ∧ ¬ (h < (len - 1) / 2) ∧ r.length = l.length ∧
        HeapAround key r len h ∧
        (0 < h → ∀ p, r[(h - 1) / 2]? = some p → HoleChildren key r len h (key p)) ∧
        (∀ v, (r.set h v).Perm (l.set hole v)) ∧
        ∀ j, len ≤ j → r[j]? = l[j]? := by
  intro fuel
  induction fuel with
  | zero => intro l hole hf hlen; omega
  | succ fuel ih =>
    intro l hole hf hlen hll hA hG
    simp only [adjust_heap_loop]
    by_cases hcond : hole < (len - 1) / 2
    · rw [if_pos hcond]
      have hs : 2 * (hole + 1) < len := by omega
      obtain ⟨x, hx⟩ : ∃ x, l[2 * (hole + 1)]? = some x :=
        ⟨l[2 * (hole + 1)], List.getElem?_eq_getElem (by omega)⟩
      obtain ⟨y, hy⟩ : ∃ y, l[2 * (hole + 1) - 1]? = some y :=
        ⟨l[2 * (hole + 1) - 1], List.getElem?_eq_getElem (by omega)⟩
      obtain ⟨x0, hx0⟩ : ∃ x0, l[hole]? = some x0 :=
        ⟨l[hole], List.getElem?_eq_getElem (by omega)⟩
      rw [List.get?_eq_getElem?, List.get?_eq_getElem?, hx, hy]
      simp only
      have children : ∀ i, 0 < i → (i - 1) / 2 = hole →
          i = 2 * (hole + 1) ∨ i = 2 * (hole + 1) - 1 := by
        intro i hi h; omega
      by_cases hc : comp x y = true
      · rw [if_pos hc]
        have hlt : key y < key x := by rw [hcomp] at hc; exact of_decide_eq_true hc
        have hmin : HoleChildren key l len hole (key y) := by
          intro i a hi hilen h1 ha
          rcases children i hi h1 with h | h
          · subst h; rw [hx] at ha; cases ha; exact le_of_lt hlt
          · subst h; rw [hy] at ha; cases ha; exact le_refl _
        obtain ⟨s1, s2, s3⟩ := sink_step key len l hole (2 * (hole + 1) - 1) y x0
          (by omega) (by omega) (by omega) hll hy hx0 hA hG hmin
        obtain ⟨r, h, e, c1, c2, c3, c4, c5, c6, c7⟩ :=
          ih (l.set hole y) (2 * (hole + 1) - 1) (by omega) (by omega)
            (by rw [List.length_set]; exact hll) s1 s2
        refine ⟨r, h, e, c1, c2, by rw [c3, List.length_set], c4, c5, ?_, ?_⟩
        · intro v; exact (c6 v).trans (s3 v)
        · intro j hj; rw [c7 j hj]; exact List.getElem?_set_ne (by omega)
      · rw [if_neg hc]
        have hge : key x ≤ key y := by
          rw [hcomp] at hc
          exact not_lt.mp (of_decide_eq_false (by simpa using hc))
        have hmin : HoleChildren key l len hole (key x) := by
          intro i a hi hilen h1 ha
          rcases children i hi h1 with h | h
          · subst h; rw [hx] at ha; cases ha; exact le_refl _
          · subst h; rw [hy] at ha; cases ha; exact hge
        obtain ⟨s1, s2, s3⟩ := sink_step key len l hole (2 * (hole + 1)) x x0
          (by omega) (by omega) (by omega) hll hx hx0 hA hG hmin
        obtain ⟨r, h, e, c1, c2, c3, c4, c5, c6, c7⟩ :=
          ih (l.set hole x) (2 * (hole + 1)) (by omega) (by omega)
            (by rw [List.length_set]; exact hll) s1 s2
        refine ⟨r, h, e, c1, c2, by rw [c3, List.length_set], c4, c5, ?_, ?_⟩
        · intro v; exact (c6 v).trans (s3 v)
        · intro j hj; rw [c7 j hj]; exact List.getElem?_set_ne (by omega)
    · rw [if_neg hcond]
      exact ⟨l, hole, rfl, hlen, hcond, rfl, hA, hG, fun v => List.Perm.refl _, fun j _ => rfl⟩



theorem adjust_heap_spec {α : Type} (key : α → Int) (comp : α → α → Bool)
    (hcomp : ∀ x y, comp x y = decide (key y < key x)) (len : Nat) (l : List α) (value : α)
    (hlen : 0 < len) (hll : len ≤ l.length) (hA : HeapAround key l len 0) :
    IsHeap key (adjust_heap comp l 0 len value) len ∧
    (adjust_heap comp l 0 len value).Perm (l.set 0 value) ∧
    ∀ j, len ≤ j → (adjust_heap comp l 0 len value)[j]? = l[j]? := by
  obtain ⟨r, h, e, c1, c2, c3, c4, c5, c6, c7⟩ :=
    adjust_heap_loop_spec key comp hcomp len len l 0 (by omega) hlen hll hA
      (by intro h0; omega)
  simp only [adjust_heap, e]
  by_cases hcond : len % 2 = 0 ∧ h = (len - 2) / 2
  · rw [if_pos hcond]
    have hk : 2 * (h + 1) - 1 < len := by omega
    obtain ⟨x, hx⟩ : ∃ x, r[2 * (h + 1) - 1]? = some x :=
      ⟨r[2 * (h + 1) - 1], List.getElem?_eq_getElem (by omega)⟩
    obtain ⟨x0, hx0⟩ : ∃ x0, r[h]? = some x0 :=
      ⟨r[h], List.getElem?_eq_getElem (by omega)⟩
    rw [List.get?_eq_getElem?, hx]
    simp only
    have hmin : HoleChildren key r len h (key x) := by
      intro i a hi hilen h1 ha
      have : i = 2 * (h + 1) - 1 := by omega
      subst this; rw [hx] at ha; cases ha; exact le_refl _
    obtain ⟨s1, s2, s3⟩ := sink_step key len r h (2 * (h + 1) - 1) x x0
      (by omega) (by omega) hk (by omega) hx hx0 c4 c5 hmin
    have hB : HoleChildren key (r.set h x) len (2 * (h + 1) - 1) (key value) := by
      intro i a hi hilen h1 _; omega
    obtain ⟨p1, p2, p3⟩ := push_heap_loop_spec key comp hcomp value len (2 * (h + 1) - 1)
      (r.set h x) (2 * (h + 1) - 1) (le_refl _) hk (by rw [List.length_set]; omega) s1 hB s2
    refine ⟨p1, p2.trans ((s3 value).trans (c6 value)), ?_⟩
    intro j hj
    rw [p3 j hj, List.getElem?_set_ne (by omega), c7 j hj]
  · rw [if_neg hcond]
    have hB : HoleChildren key r len h (key value) := by
      intro i a hi hilen h1 _; omega
    obtain ⟨p1, p2, p3⟩ := push_heap_loop_spec key comp hcomp value len h r h (le_refl _) c1
      (by omega) c4 hB c5
    refine ⟨p1, p2.trans (c6 value), ?_⟩
    intro j hj
    rw [p3 j hj, c7 j hj]

theorem IsHeap.around {α : Type} {key : α → Int} {l : List α} {len : Nat}
    (h : IsHeap key l len) (hole : Nat) : HeapAround key l len hole :=
  fun i x p hi hilen _ _ hx hp => h i x p hi hilen hx hp

theorem IsHeap.mono {α : Type} {key : α → Int} {l : List α} {len len2 : Nat}
    (h : IsHeap key l len) (hle : len2 ≤ len) : IsHeap key l len2 :=
  fun i x p hi hilen hx hp => h i x p hi (by omega) hx hp

/-- The first element of a heap has the least key. -/
theorem IsHeap.head_le {α : Type} {key : α → Int} {l : List α} (h : IsHeap key l l.length)
    (t : α) (ht : l[0]? = some t) : ∀ (i : Nat) (x : α), l[i]? = some x → key t ≤ key x := by
  intro i
  induction i using Nat.strong_induction_on with
  | _ i ih =>
    intro x hx
    by_cases hi : i = 0
    · subst hi; rw [ht] at hx; cases hx; exact le_refl _
    · have hil : i < l.length := by
        by_contra hc
        rw [List.getElem?_eq_none (by omega)] at hx
        cases hx
      obtain ⟨p, hp⟩ : ∃ p, l[(i - 1) / 2]? = some p :=
        ⟨l[(i - 1) / 2], List.getElem?_eq_getElem (by omega)⟩
      exact le_trans (ih ((i - 1) / 2) (by omega) p hp) (h i x p (by omega) hil hx hp)

theorem push_heap_spec {α : Type} (key : α → Int) (comp : α → α → Bool)
    (hcomp : ∀ x y, comp x y = decide (key y < key x)) (l : List α) (x : α)
    (h : IsHeap key l l.length) :
    IsHeap key (push_heap comp (l ++ [x])) (l.length + 1) ∧
    (push_heap comp (l ++ [x])).Perm (x :: l) := by
  have hlast : (l ++ [x]).getLast? = some x := by simp
  have hlen : (l ++ [x]).length = l.length + 1 := by simp
  simp only [push_heap, hlast, hlen, Nat.add_sub_cancel]
  have hA : HeapAround key (l ++ [x]) (l.length + 1) l.length := by
    intro i a p hi hilen h1 h2 ha hp
    have hi2 : i < l.length := by omega
    rw [List.getElem?_append_left hi2] at ha
    rw [List.getElem?_append_left (by omega)] at hp
    exact h i a p hi hi2 ha hp
  have hB : ∀ b, HoleChildren key (l ++ [x]) (l.length + 1) l.length b := by
    intro b i a hi hilen h1 _; omega
  obtain ⟨p1, p2, _⟩ := push_heap_loop_spec key comp hcomp x (l.length + 1) l.length (l ++ [x])
    l.length (le_refl _) (by omega) (by omega) hA (hB _) (fun _ p _ => hB _)
  refine ⟨p1, p2.trans ?_⟩
  have hset : (l ++ [x]).set l.length x = l ++ [x] := by
    apply List.ext_getElem? 
    intro j
    by_cases hj : j = l.length
    · subst hj; rw [List.getElem?_set_self (by simp)]; simp
    · rw [List.getElem?_set_ne (Ne.symm hj)]
  rw [hset]
  exact List.perm_append_singleton x l

theorem pop_heap_spec {α : Type} (key : α → Int) (comp : α → α → Bool)
    (hcomp : ∀ x y, comp x y = decide (key y < key x)) (l : List α) (t : α)
    (ht : l[0]? = some t) (h : IsHeap key l l.length) :
    IsHeap key (pop_heap comp l).dropLast (l.length - 1) ∧
    (t :: (pop_heap comp l).dropLast).Perm l := by
  have hpos : 0 < l.length := by
    by_contra hc
    rw [List.getElem?_eq_none (by omega)] at ht
    cases ht
  simp only [pop_heap]
  by_cases h1 : l.length > 1
  · rw [if_pos h1]
    obtain ⟨value, hv⟩ : ∃ v, l[l.length - 1]? = some v :=
      ⟨l[l.length - 1], List.getElem?_eq_getElem (by omega)⟩
    rw [List.get?_eq_getElem?, List.get?_eq_getElem?, hv, ht]
    simp only
    have hA : HeapAround key (l.set (l.length - 1) t) (l.length - 1) 0 := by
      intro i a p hi hilen _ _ ha hp
      rw [List.getElem?_set_ne (by omega)] at ha hp
      exact h i a p hi (by omega) ha hp
    obtain ⟨a1, a2, a3⟩ := adjust_heap_spec key comp hcomp (l.length - 1)
      (l.set (l.length - 1) t) value (by omega) (by rw [List.length_set]; omega) hA
    set r := adjust_heap comp (l.set (l.length - 1) t) 0 (l.length - 1) value with hr
    have hperm : r.Perm l := by
      refine a2.trans ((perm_set_move l (l.length - 1) 0 value t value hv ht (by omega)).trans ?_)
      have : l.set (l.length - 1) value = l := by
        apply List.ext_getElem?
        intro j
        by_cases hj : j = l.length - 1
        · subst hj; rw [List.getElem?_set_self (by omega)]; exact hv.symm
        · rw [List.getElem?_set_ne (Ne.symm hj)]
      rw [this]
    have hrl : r.length = l.length := hperm.length_eq
    have hlast : r[l.length - 1]? = some t := by
      rw [a3 _ (le_refl _), List.getElem?_set_self (by omega)]
    have hsplit : r = r.dropLast ++ [t] := by
      apply List.ext_getElem?
      intro j
      by_cases hj : j < l.length - 1
      · rw [List.getElem?_append_left (by simp; omega)]
        rw [List.dropLast_eq_take, List.getElem?_take_of_lt (by omega)]
      · by_cases hj2 : j = l.length - 1
        · subst hj2
          rw [hlast, List.getElem?_append_right (by simp; omega)]
          simp [hrl]
        · rw [List.getElem?_eq_none (by omega), List.getElem?_eq_none (by simp; omega)]
    constructor
    · intro i a p hi hilen ha hp
      rw [List.dropLast_eq_take, List.getElem?_take_of_lt (by omega)] at ha hp
      exact a1 i a p hi hilen ha hp
    · have : (t :: r.dropLast).Perm r := by
        conv => rhs; rw [hsplit]
        exact (List.perm_append_singleton t r.dropLast).symm
      exact this.trans hperm
  · rw [if_neg h1]
    have hl1 : l.length = 1 := by omega
    match l, hl1, ht with
    | [a], _, ht =>
      simp at ht; subst ht
      constructor
      · intro i a p hi hilen; simp at hilen
      · simp

/-! ## The heap sees its elements through the comparator only -/

theorem push_heap_loop_map {α β : Type} (view : β → α) (comp : α → α → Bool) (value : β)
    (topIndex : Nat) : ∀ (fuel : Nat) (l : List β) (hole : Nat),
    (push_heap_loop (fun a b => comp (view a) (view b)) value topIndex fuel l hole).map view
      = push_heap_loop comp (view value) topIndex fuel (l.map view) hole := by
  intro fuel
  induction fuel with
  | zero => intro l hole; simp [push_heap_loop, List.map_set]
  | succ fuel ih =>
    intro l hole
    simp only [push_heap_loop, List.get?_eq_getElem?, List.getElem?_map]
    by_cases h : hole > topIndex
    · simp only [if_pos h]
      cases hp : l[(hole - 1) / 2]? with
      | none => simp [List.map_set]
      | some p =>
        simp only [Option.map_some']
        by_cases hc : comp (view p) (view value) = true
        · simp only [if_pos hc]
          rw [ih, List.map_set]
        · simp only [if_neg hc, List.map_set]
    · simp only [if_neg h, List.map_set]

theorem push_heap_map {α β : Type} (view : β → α) (comp : α → α → Bool) (l : List β) :
    (push_heap (fun a b => comp (view a) (view b)) l).map view
      = push_heap comp (l.map view) := by
  unfold push_heap
  rw [List.getLast?_map]
  cases l.getLast? with
  | none => rfl
  | some value => simp only [Option.map_some', List.length_map]; exact push_heap_loop_map _ _ _ _ _ _ _

theorem adjust_heap_loop_map {α β : Type} (view : β → α) (comp : α → α → Bool) (len : Nat) :
    ∀ (fuel : Nat) (l : List β) (hole second : Nat),
    ((adjust_heap_loop (fun a b => comp (view a) (view b)) len fuel l hole second).1.map view,
      (adjust_heap_loop (fun a b => comp (view a) (view b)) len fuel l hole second).2)
      = adjust_heap_loop comp len fuel (l.map view) hole second := by
  intro fuel
  induction fuel with
  | zero => intro l hole second; rfl
  | succ fuel ih =>
    intro l hole second
    simp only [adjust_heap_loop, List.get?_eq_getElem?, List.getElem?_map]
    by_cases h : second < (len - 1) / 2
    · simp only [if_pos h]
      cases hx : l[2 * (second + 1)]? with
      | none => simp
      | some x =>
        cases hy : l[2 * (second + 1) - 1]? with
        | none => simp
        | some y =>
          simp only [Option.map_some']
          by_cases hc : comp (view x) (view y) = true
          · simp only [if_pos hc]
            rw [← List.map_set, ← ih]
          · simp only [if_neg hc]
            rw [← List.map_set, ← ih]
    · simp only [if_neg h]

theorem adjust_heap_map {α β : Type} (view : β → α) (comp : α → α → Bool) (l : List β)
    (hole len : Nat) (value : β) :
    (adjust_heap (fun a b => comp (view a) (view b)) l hole len value).map view
      = adjust_heap comp (l.map view) hole len (view value) := by
  have h := adjust_heap_loop_map view comp len len l hole hole
  unfold adjust_heap
  rw [← h]
  simp only [List.get?_eq_getElem?, List.getElem?_map]
  split_ifs with hc
  · cases hx : (adjust_heap_loop (fun a b => comp (view a) (view b)) len len l hole hole).1[
        2 * ((adjust_heap_loop (fun a b => comp (view a) (view b)) len len l hole hole).2.2 + 1)
          - 1]? with
    | none => simp only [Option.map_none']; exact push_heap_loop_map _ _ _ _ _ _ _
    | some x =>
      simp only [Option.map_some']
      rw [push_heap_loop_map, List.map_set]
  · exact push_heap_loop_map _ _ _ _ _ _ _

theorem pop_heap_map {α β : Type} (view : β → α) (comp : α → α → Bool) (l : List β) :
    (pop_heap (fun a b => comp (view a) (view b)) l).map view
      = pop_heap comp (l.map view) := by
  unfold pop_heap
  simp only [List.length_map, List.get?_eq_getElem?, List.getElem?_map]
  split_ifs with h
  · cases hv : l[l.length - 1]? with
    | none => simp
    | some value =>
      cases hf : l[0]? with
      | none => simp
      | some first =>
        simp only [Option.map_some']
        rw [adjust_heap_map, List.map_set]
  · rfl

/-! ## The code table and the paths of the tree -/

/-! ### The code map -/

theorem lookup_filter_ne (m : CodeMap) (key k : Char) (h : k ≠ key) :
    (m.filter (fun p => p.1 != key)).lookup k = m.lookup k := by
  induction m with
  | nil => rfl
  | cons a m ih =>
    obtain ⟨a1, a2⟩ := a
    by_cases ha : a1 = key
    · subst ha
      have h1 : ((a1, a2) :: m).filter (fun p => p.1 != a1) = m.filter (fun p => p.1 != a1) := by
        simp [List.filter_cons]
      have h2 : (k == a1) = false := by simpa using h
      rw [h1, ih, List.lookup_cons, h2]
    · have h1 : ((a1, a2) :: m).filter (fun p => p.1 != key)
          = (a1, a2) :: m.filter (fun p => p.1 != key) := by
        simp [List.filter_cons, ha]
      rw [h1, List.lookup_cons, List.lookup_cons, ih]

theorem lookup_assign (m : CodeMap) (key : Char) (v : List Char) (k : Char) :
    (m.assign key v).lookup k = if k = key then some v else m.lookup k := by
  unfold CodeMap.assign
  by_cases h : k = key
  · subst h; simp [List.lookup_cons]
  · have h2 : (k == key) = false := by simpa using h
    rw [List.lookup_cons, h2, if_neg h]
    exact lookup_filter_ne m key k h

theorem keys_assign (m : CodeMap) (key : Char) (v : List Char) (k : Char) :
    k ∈ (m.assign key v).map Prod.fst ↔ k = key ∨ k ∈ m.map Prod.fst := by
  unfold CodeMap.assign
  simp only [List.map_cons, List.mem_cons, List.mem_map, List.mem_filter]
  constructor
  · rintro (h | ⟨a, ⟨ha, _⟩, rfl⟩)
    · exact Or.inl h
    · exact Or.inr ⟨a, ha, rfl⟩
  · rintro (h | ⟨a, ha, rfl⟩)
    · exact Or.inl h
    · by_cases hk : a.1 = key
      · exact Or.inl hk
      · exact Or.inr ⟨a, ⟨ha, by simpa using hk⟩, rfl⟩

/-! ### buildCodes against the paths of the tree -/

theorem keys_buildCodes (t : Node) : ∀ (str : List Char) (m : CodeMap) (k : Char),
    k ∈ (buildCodes t str m).map Prod.fst ↔ k ∈ t.leaves.map Prod.fst ∨ k ∈ m.map Prod.fst := by
  induction t with
  | nullptr => intro str m k; simp [buildCodes, Node.leaves]
  | mk ch f l r ihl ihr =>
    intro str m k
    by_cases hleaf : l = Node.nullptr ∧ r = Node.nullptr
    · simp only [buildCodes, Node.leaves, if_pos hleaf, keys_assign]
      simp
    · simp only [buildCodes, Node.leaves, if_neg hleaf, ihr, ihl, List.map_append,
        List.mem_append]
      tauto

theorem lookup_buildCodes_of_not_mem (t : Node) : ∀ (str : List Char) (m : CodeMap) (k : Char),
    k ∉ t.leaves.map Prod.fst → (buildCodes t str m).lookup k = m.lookup k := by
  induction t with
  | nullptr => intro str m k _; simp [buildCodes]
  | mk ch f l r ihl ihr =>
    intro str m k hk
    by_cases hleaf : l = Node.nullptr ∧ r = Node.nullptr
    · simp only [Node.leaves, if_pos hleaf, List.map_cons, List.map_nil, List.mem_singleton] at hk
      simp only [buildCodes, if_pos hleaf, lookup_assign, if_neg hk]
    · simp only [Node.leaves, if_neg hleaf, List.map_append, List.mem_append, not_or] at hk
      simp only [buildCodes, if_neg hleaf]
      rw [ihr _ _ _ hk.2, ihl _ _ _ hk.1]

theorem mem_leaves_of_leafAt (t : Node) : ∀ (p : List Char) (c : Char),
    t.leafAt p = some c → c ∈ t.leaves.map Prod.fst := by
  induction t with
  | nullptr => intro p c h; simp [Node.leafAt] at h
  | mk ch f l r ihl ihr =>
    intro p c h
    by_cases hleaf : l = Node.nullptr ∧ r = Node.nullptr
    · cases p with
      | nil =>
        simp only [Node.leafAt, if_pos hleaf] at h
        cases h
        simp [Node.leaves, if_pos hleaf]
      | cons b p => simp [Node.leafAt, if_pos hleaf] at h
    · cases p with
      | nil => simp [Node.leafAt, if_neg hleaf] at h
      | cons b p =>
        simp only [Node.leafAt, if_neg hleaf] at h
        simp only [Node.leaves, if_neg hleaf, List.map_append, List.mem_append]
        by_cases hb : b = '0'
        · rw [if_pos hb] at h; exact Or.inl (ihl p c h)
        · rw [if_neg hb] at h
          by_cases hb1 : b = '1'
          · rw [if_pos hb1] at h; exact Or.inr (ihr p c h)
          · rw [if_neg hb1] at h; cases h

theorem exists_leafAt_of_mem (t : Node) : ∀ (c : Char),
    c ∈ t.leaves.map Prod.fst → ∃ p, t.leafAt p = some c := by
  induction t with
  | nullptr => intro c h; simp [Node.leaves] at h
  | mk ch f l r ihl ihr =>
    intro c h
    by_cases hleaf : l = Node.nullptr ∧ r = Node.nullptr
    · simp only [Node.leaves, if_pos hleaf, List.map_cons, List.map_nil,
        List.mem_singleton] at h
      exact ⟨[], by simp [Node.leafAt, if_pos hleaf, h]⟩
    · simp only [Node.leaves, if_neg hleaf, List.map_append, List.mem_append] at h
      rcases h with h | h
      · obtain ⟨p, hp⟩ := ihl c h
        exact ⟨'0' :: p, by simp [Node.leafAt, if_neg hleaf, hp]⟩
      · obtain ⟨p, hp⟩ := ihr c h
        exact ⟨'1' :: p, by simp [Node.leafAt, if_neg hleaf, hp]⟩

theorem lookup_buildCodes_of_leafAt (t : Node) : ∀ (str : List Char) (m : CodeMap)
    (p : List Char) (c : Char), (t.leaves.map Prod.fst).Nodup → t.leafAt p = some c →
    (buildCodes t str m).lookup c = some (str ++ p) := by
  induction t with
  | nullptr => intro str m p c _ h; simp [Node.leafAt] at h
  | mk ch f l r ihl ihr =>
    intro str m p c hnd h
    by_cases hleaf : l = Node.nullptr ∧ r = Node.nullptr
    · cases p with
      | nil =>
        simp only [Node.leafAt, if_pos hleaf] at h
        cases h
        simp [buildCodes, if_pos hleaf, lookup_assign]
      | cons b p => simp [Node.leafAt, if_pos hleaf] at h
    · cases p with
      | nil => simp [Node.leafAt, if_neg hleaf] at h
      | cons b p =>
        simp only [Node.leafAt, if_neg hleaf] at h
        simp only [Node.leaves, if_neg hleaf, List.map_append] at hnd
        have hndl := (List.nodup_append.mp hnd).1
        have hndr := (List.nodup_append.mp hnd).2.1
        have hdis := (List.nodup_append.mp hnd).2.2
        simp only [buildCodes, if_neg hleaf]
        by_cases hb : b = '0'
        · rw [if_pos hb] at h
          have hmem := mem_leaves_of_leafAt l p c h
          have hnot : c ∉ r.leaves.map Prod.fst := fun hr => hdis hmem hr
          rw [lookup_buildCodes_of_not_mem r _ _ _ hnot, ihl _ _ p c hndl h, hb]
          simp
        · rw [if_neg hb] at h
          by_cases hb1 : b = '1'
          · rw [if_pos hb1] at h
            rw [ihr _ _ p c hndr h, hb1]
            simp
          · rw [if_neg hb1] at h; cases h

/-- A path to a leaf cannot be extended to a path to a leaf. -/
theorem leafAt_append (t : Node) : ∀ (p q : List Char) (a b : Char),
    t.leafAt p = some a → t.leafAt (p ++ q) = some b → q = [] ∧ a = b := by
  induction t with
  | nullptr => intro p q a b h; simp [Node.leafAt] at h
  | mk ch f l r ihl ihr =>
    intro p q a b h1 h2
    by_cases hleaf : l = Node.nullptr ∧ r = Node.nullptr
    · cases p with
      | nil =>
        cases q with
        | nil =>
          simp only [Node.leafAt, if_pos hleaf, List.append_nil] at h1 h2
          rw [h1] at h2; cases h2; exact ⟨rfl, rfl⟩
        | cons x q => simp [Node.leafAt, if_pos hleaf] at h2
      | cons x p => simp [Node.leafAt, if_pos hleaf] at h1
    · cases p with
      | nil => simp [Node.leafAt, if_neg hleaf] at h1
      | cons x p =>
        simp only [Node.leafAt, if_neg hleaf, List.cons_append] at h1 h2
        by_cases hb : x = '0'
        · rw [if_pos hb] at h1 h2; exact ihl p q a b h1 h2
        · rw [if_neg hb] at h1 h2
          by_cases hb1 : x = '1'
          · rw [if_pos hb1] at h1 h2; exact ihr p q a b h1 h2
          · rw [if_neg hb1] at h1; cases h1

theorem lookup_buildCodes_iff (root : Node) (hnd : (root.leaves.map Prod.fst).Nodup)
    (c : Char) (p : List Char) :
    (buildCodes root [] []).lookup c = some p ↔ root.leafAt p = some c := by
  constructor
  · intro h
    by_cases hc : c ∈ root.leaves.map Prod.fst
    · obtain ⟨q, hq⟩ := exists_leafAt_of_mem root c hc
      have := lookup_buildCodes_of_leafAt root [] [] q c hnd hq
      rw [h] at this
      simp only [List.nil_append, Option.some.injEq] at this
      rw [this]; exact hq
    · rw [lookup_buildCodes_of_not_mem root [] [] c hc] at h
      simp at h
  · intro h
    simpa using lookup_buildCodes_of_leafAt root [] [] p c hnd h

/-! ## Kraft sums and the exchange argument -/

/-! ### Kraft sums -/

theorem kraft_nil : kraft [] = 0 := by simp [kraft]

theorem kraft_cons (d : Nat) (ds : List Nat) : kraft (d :: ds) = (1 / 2 : ℚ) ^ d + kraft ds := by
  simp [kraft]

theorem kraft_append (ds es : List Nat) : kraft (ds ++ es) = kraft ds + kraft es := by
  simp [kraft]

theorem kraft_perm {ds es : List Nat} (h : ds.Perm es) : kraft ds = kraft es := by
  unfold kraft
  exact (h.map _).sum_eq

theorem kraft_nonneg (ds : List Nat) : 0 ≤ kraft ds := by
  induction ds with
  | nil => simp [kraft]
  | cons d ds ih => rw [kraft_cons]; positivity

/-- A Kraft sum of depths bounded by `D` is a multiple of `2 ^ -D`. -/
theorem kraft_integral (D : Nat) : ∀ ds : List Nat, (∀ d ∈ ds, d ≤ D) →
    ∃ m : ℕ, kraft ds * 2 ^ D = m := by
  intro ds
  induction ds with
  | nil => intro _; exact ⟨0, by simp [kraft]⟩
  | cons d ds ih =>
    intro h
    obtain ⟨m, hm⟩ := ih (fun x hx => h x (List.mem_cons_of_mem _ hx))
    have hd : d ≤ D := h d (List.mem_cons_self _ _)
    refine ⟨2 ^ (D - d) + m, ?_⟩
    rw [kraft_cons, add_mul, hm]
    have : (1 / 2 : ℚ) ^ d * 2 ^ D = 2 ^ (D - d) := by
      have hD : D = d + (D - d) := by omega
      conv_lhs => rw [hD, pow_add, ← mul_assoc, ← mul_pow]
      norm_num
    rw [this]; push_cast; ring

/-- A depth above all others can be lowered to the greatest of the others
without breaking the Kraft inequality. -/
theorem kraft_lift (D : Nat) (ds : List Nat) (h : ∀ d ∈ ds, d ≤ D) (x : ℚ) (hx : 0 < x)
    (hk : x + kraft ds ≤ 1) : (1 / 2 : ℚ) ^ D + kraft ds ≤ 1 := by
  obtain ⟨m, hm⟩ := kraft_integral D ds h
  have hpow : (0 : ℚ) < 2 ^ D := by positivity
  have hlt : kraft ds < 1 := by linarith
  have h1 : (m : ℚ) < 2 ^ D := by
    rw [← hm]
    calc kraft ds * 2 ^ D < 1 * 2 ^ D := by
          apply mul_lt_mul_of_pos_right hlt hpow
      _ = 2 ^ D := one_mul _
  have h2 : m < 2 ^ D := by exact_mod_cast h1
  have h3 : (m : ℚ) + 1 ≤ 2 ^ D := by exact_mod_cast h2
  have h4 : ((1 / 2 : ℚ) ^ D + kraft ds) * 2 ^ D ≤ 1 * 2 ^ D := by
    rw [add_mul, hm, one_mul]
    have : (1 / 2 : ℚ) ^ D * 2 ^ D = 1 := by
      rw [← mul_pow]; norm_num
    rw [this]; linarith
  exact le_of_mul_le_mul_right h4 hpow

/-! ### The exchange argument on weighted depths -/

theorem wsum_nil {α : Type} (w : α → Int) : wsum w [] = 0 := by simp [wsum]

theorem wsum_cons {α : Type} (w : α → Int) (x : α) (d : Nat) (ps : List (α × Nat)) :
    wsum w ((x, d) :: ps) = w x * (d : Int) + wsum w ps := by
  simp [wsum]

theorem wsum_perm {α : Type} (w : α → Int) {ps qs : List (α × Nat)} (h : ps.Perm qs) :
    wsum w ps = wsum w qs := by
  unfold wsum
  exact (h.map _).sum_eq

/-- The lightest item can take the greatest depth without raising the cost. -/
theorem bubble_depth {α : Type} (w : α → Int) (a : α) : ∀ (L : List (α × Nat)) (da : Nat),
    (∀ p ∈ L, w a ≤ w p.1) →
    ∃ (D : Nat) (L2 : List (α × Nat)), L2.map Prod.fst = L.map Prod.fst ∧
      (D :: L2.map Prod.snd).Perm (da :: L.map Prod.snd) ∧
      (∀ d ∈ L2.map Prod.snd, d ≤ D) ∧
      w a * (D : Int) + wsum w L2 ≤ w a * (da : Int) + wsum w L := by
  intro L
  induction L with
  | nil => intro da _; exact ⟨da, [], rfl, List.Perm.refl _, by simp, le_refl _⟩
  | cons xd L1 ih =>
    intro da hmin
    obtain ⟨x, d⟩ := xd
    obtain ⟨D1, L1b, e1, e2, e3, e4⟩ :=
      ih da (fun p hp => hmin p (List.mem_cons_of_mem _ hp))
    have hax : w a ≤ w x := hmin (x, d) (List.mem_cons_self _ _)
    by_cases hd : d ≤ D1
    · refine ⟨D1, (x, d) :: L1b, by simp [e1], ?_, ?_, ?_⟩
      · simp only [List.map_cons]
        exact (List.Perm.swap d D1 _).trans ((e2.cons d).trans (List.Perm.swap da d _))
      · intro y hy
        simp only [List.map_cons, List.mem_cons] at hy
        rcases hy with hy | hy
        · rw [hy]; exact hd
        · exact e3 y hy
      · rw [wsum_cons, wsum_cons]; linarith
    · refine ⟨d, (x, D1) :: L1b, by simp [e1], ?_, ?_, ?_⟩
      · simp only [List.map_cons]
        exact (e2.cons d).trans (List.Perm.swap da d _)
      · intro y hy
        simp only [List.map_cons, List.mem_cons] at hy
        rcases hy with hy | hy
        · rw [hy]; omega
        · have := e3 y hy; omega
      · rw [wsum_cons, wsum_cons]
        have h1 : (D1 : Int) ≤ d := by exact_mod_cast (by omega : D1 ≤ d)
        nlinarith [mul_nonneg (sub_nonneg.mpr hax) (sub_nonneg.mpr h1)]

theorem exists_perm_cons_of_map_fst {α : Type} (ps : List (α × Nat)) (a : α) (l : List α)
    (h : (ps.map Prod.fst).Perm (a :: l)) :
    ∃ (d : Nat) (ps2 : List (α × Nat)), ps.Perm ((a, d) :: ps2) ∧ (ps2.map Prod.fst).Perm l := by
  have hmem : a ∈ ps.map Prod.fst := h.symm.subset (List.mem_cons_self _ _)
  obtain ⟨⟨a2, d⟩, hp, rfl⟩ := List.mem_map.mp hmem
  obtain ⟨s, t, rfl⟩ := List.append_of_mem hp
  refine ⟨d, s ++ t, List.perm_middle, ?_⟩
  have h2 : ((s ++ (a2, d) :: t).map Prod.fst).Perm (a2 :: (s ++ t).map Prod.fst) := by
    simp only [List.map_append, List.map_cons]
    exact List.perm_middle
  exact (h2.symm.trans h).cons_inv

/-- Exchange step of the optimality proof: in any assignment of depths that
satisfies the Kraft inequality, the two lightest items can be replaced by one
item of their joint weight, one level above the deeper places, and the cost
drops by at least the joint weight. -/
theorem merge_two_lightest {α : Type} (w : α → Int) (ps : List (α × Nat)) (a b n : α)
    (rest : List α) (hperm : (ps.map Prod.fst).Perm (a :: b :: rest))
    (ha : ∀ x ∈ b :: rest, w a ≤ w x) (hb : ∀ x ∈ rest, w b ≤ w x)
    (ha0 : 0 ≤ w a) (hn : w n = w a + w b)
    (hk : kraft (ps.map Prod.snd) ≤ 1) :
    ∃ qs : List (α × Nat), (qs.map Prod.fst).Perm (n :: rest) ∧
      kraft (qs.map Prod.snd) ≤ 1 ∧ wsum w qs + w a + w b ≤ wsum w ps := by
  obtain ⟨da, ps1, hp1, hf1⟩ := exists_perm_cons_of_map_fst ps a (b :: rest) hperm
  obtain ⟨db, ps0, hp0, hf0⟩ := exists_perm_cons_of_map_fst ps1 b rest hf1
  have hmin1 : ∀ p ∈ (b, db) :: ps0, w a ≤ w p.1 := by
    intro p hp
    apply ha
    have : p.1 ∈ ((b, db) :: ps0).map Prod.fst := List.mem_map_of_mem _ hp
    simp only [List.map_cons] at this
    exact (hf0.cons b).subset this
  obtain ⟨D1, L1, e1, e2, e3, e4⟩ := bubble_depth w a ((b, db) :: ps0) da hmin1
  cases L1 with
  | nil => simp at e1
  | cons hd ps0b =>
    obtain ⟨b2, db2⟩ := hd
    simp only [List.map_cons, List.cons.injEq] at e1
    obtain ⟨hb2, e1⟩ := e1
    subst hb2
    have hmin2 : ∀ p ∈ ps0b, w b2 ≤ w p.1 := by
      intro p hp
      apply hb
      have : p.1 ∈ ps0b.map Prod.fst := List.mem_map_of_mem _ hp
      rw [e1] at this
      exact hf0.subset this
    obtain ⟨D2, ps0c, f1, f2, f3, f4⟩ := bubble_depth w b2 ps0b db2 hmin2
    have hD21 : D2 ≤ D1 := by
      apply e3
      have : D2 ∈ db2 :: ps0b.map Prod.snd := f2.subset (List.mem_cons_self _ _)
      simpa using this
    -- Kraft sum of the rearranged depths
    have hk0 : kraft (ps.map Prod.snd) = kraft (D1 :: D2 :: ps0c.map Prod.snd) := by
      have q1 : (ps.map Prod.snd).Perm (da :: db :: ps0.map Prod.snd) := by
        have := (hp1.trans (hp0.cons _)).map Prod.snd
        simpa using this
      have q2 : (D1 :: db2 :: ps0b.map Prod.snd).Perm (da :: db :: ps0.map Prod.snd) := by
        simpa using e2
      exact kraft_perm (q1.trans (q2.symm.trans (f2.symm.cons D1)))
    rw [hk0, kraft_cons] at hk
    have hall : ∀ d ∈ D2 :: ps0c.map Prod.snd, d ≤ D2 := by
      intro d hd
      rcases List.mem_cons.mp hd with h | h
      · rw [h]
      · exact f3 d h
    have hlift := kraft_lift D2 (D2 :: ps0c.map Prod.snd) hall _ (by positivity) hk
    rw [kraft_cons] at hlift
    have hD2pos : 0 < D2 := by
      by_contra hc
      have h0 : D2 = 0 := by omega
      rw [h0] at hlift
      have := kraft_nonneg (ps0c.map Prod.snd)
      norm_num at hlift
      linarith
    refine ⟨(n, D2 - 1) :: ps0c, ?_, ?_, ?_⟩
    · simp only [List.map_cons]
      rw [f1, e1]
      exact hf0.cons n
    · simp only [List.map_cons]
      rw [kraft_cons]
      have : (1 / 2 : ℚ) ^ (D2 - 1) = (1 / 2) ^ D2 + (1 / 2) ^ D2 := by
        have hD : D2 = (D2 - 1) + 1 := by omega
        conv_rhs => rw [hD, pow_succ]
        ring
      rw [this]; linarith
    · have c1 : wsum w ps = w a * (da : Int) + wsum w ((b2, db) :: ps0) := by
        rw [wsum_perm w (hp1.trans (hp0.cons _)), wsum_cons]
      rw [wsum_cons] at e4 
      rw [c1, wsum_cons, hn]
      have hcast : ((D2 - 1 : Nat) : Int) = (D2 : Int) - 1 := by
        rw [Nat.cast_sub (by omega)]; simp
      rw [hcast]
      have h1 : (D2 : Int) ≤ D1 := by exact_mod_cast hD21
      nlinarith [mul_nonneg ha0 (sub_nonneg.mpr h1)]

/-! ## The merge loop -/

theorem Compare_eq (x y : Node) : Compare x y = decide (Node.freq y < Node.freq x) := rfl

theorem top_eq (h : List Node) : top h = h[0]? := by
  unfold top; exact List.head?_eq_getElem? h

theorem push_spec (h : List Node) (x : Node) (hh : IsHeap Node.freq h h.length) :
    IsHeap Node.freq (push h x) (push h x).length ∧ (push h x).Perm (x :: h) := by
  obtain ⟨p1, p2⟩ := push_heap_spec Node.freq Compare Compare_eq h x hh
  refine ⟨?_, p2⟩
  have : (push h x).length = h.length + 1 := by
    have := p2.length_eq; simpa [push] using this
  rw [this]; exact p1

theorem pop_spec (h : List Node) (t : Node) (ht : top h = some t)
    (hh : IsHeap Node.freq h h.length) :
    IsHeap Node.freq (pop h) (pop h).length ∧ (t :: pop h).Perm h := by
  rw [top_eq] at ht
  obtain ⟨p1, p2⟩ := pop_heap_spec Node.freq Compare Compare_eq h t ht hh
  refine ⟨?_, p2⟩
  have : (pop h).length = h.length - 1 := by
    have := p2.length_eq
    simp only [List.length_cons] at this
    unfold pop; omega
  rw [this]; exact p1

theorem top_le (h : List Node) (t : Node) (ht : top h = some t)
    (hh : IsHeap Node.freq h h.length) : ∀ x ∈ h, t.freq ≤ x.freq := by
  rw [top_eq] at ht
  intro x hx
  obtain ⟨i, hi, rfl⟩ := List.getElem_of_mem hx
  exact hh.head_le t ht i _ (List.getElem?_eq_getElem hi)

/-! ### Trees -/

theorem Node.WellFormed.ne_nullptr {t : Node} (h : t.WellFormed) : t ≠ Node.nullptr := by
  intro e; subst e; exact h

theorem Node.Full.not_null {t : Node} (h : t.Full) : t ≠ Node.nullptr := by
  intro e; subst e; exact h

theorem Node.WellFormed.full : ∀ {t : Node}, t.WellFormed → t.Full := by
  intro t
  induction t with
  | nullptr => intro h; exact absurd h id
  | mk ch f l r ihl ihr =>
    intro h
    rcases h with h | ⟨h1, h2, _⟩
    · exact Or.inl h
    · exact Or.inr ⟨ihl h1, ihr h2⟩

theorem wellFormed_new (ch : Char) (f : Int) : (Node.new ch f).WellFormed :=
  Or.inl ⟨rfl, rfl⟩

theorem full_new (ch : Char) (f : Int) : (Node.new ch f).Full :=
  Or.inl ⟨rfl, rfl⟩

theorem leaves_new (ch : Char) (f : Int) : (Node.new ch f).leaves = [(ch, f)] := by
  simp [Node.new, Node.leaves]

theorem leaves_merge (ch : Char) (f : Int) (l r : Node) (hl : l ≠ Node.nullptr) :
    (Node.mk ch f l r).leaves = l.leaves ++ r.leaves := by
  have : ¬ (l = Node.nullptr ∧ r = Node.nullptr) := fun h => hl h.1
  simp only [Node.leaves, if_neg this]

theorem weight_eq_freq : ∀ (t : Node), t.WellFormed → t.weight = t.freq := by
  intro t
  induction t with
  | nullptr => intro h; exact absurd h id
  | mk ch f l r ihl ihr =>
    intro h
    by_cases hleaf : l = Node.nullptr ∧ r = Node.nullptr
    · simp [Node.weight, Node.leaves, if_pos hleaf, Node.freq]
    · rcases h with h | ⟨h1, h2, h3⟩
      · exact absurd h hleaf
      · have e1 := ihl h1
        have e2 := ihr h2
        simp only [Node.weight] at e1 e2 ⊢
        simp only [Node.leaves, if_neg hleaf, List.map_append, List.sum_append, e1, e2,
          Node.freq, h3]

theorem wpl_succ : ∀ (t : Node) (k : Nat), t.wpl (k + 1) = t.wpl k + t.weight := by
  intro t
  induction t with
  | nullptr => intro k; simp [Node.wpl, Node.weight, Node.leaves]
  | mk ch f l r ihl ihr =>
    intro k
    by_cases hleaf : l = Node.nullptr ∧ r = Node.nullptr
    · simp only [Node.wpl, Node.weight, Node.leaves, if_pos hleaf, List.map_cons,
        List.map_nil, List.sum_cons, List.sum_nil]
      push_cast; ring
    · simp only [Node.wpl, if_neg hleaf, ihl (k + 1), ihr (k + 1)]
      simp only [Node.weight, Node.leaves, if_neg hleaf, List.map_append, List.sum_append]
      ring

theorem wpl_merge (ch : Char) (f : Int) (l r : Node) (hl : l.WellFormed)
    (hr : r.WellFormed) :
    (Node.mk ch f l r).wpl 0 = l.wpl 0 + r.wpl 0 + l.freq + r.freq := by
  have : ¬ (l = Node.nullptr ∧ r = Node.nullptr) := fun h => hl.ne_nullptr h.1
  simp only [Node.wpl, if_neg this, wpl_succ, weight_eq_freq l hl, weight_eq_freq r hr]
  ring

/-- An `int` sum that stays in the range of `int` is the sum. -/
theorem wrapInt_eq (x : Int) (h1 : -2147483648 ≤ x) (h2 : x ≤ 2147483647) : wrapInt x = x := by
  unfold wrapInt
  omega

/-! ### The merge loop -/

/-- The state of one run of the loop: a single tree, full, with the leaves of
the queue; and, when the weights in the queue are not negative and their sum is
in the range of `int`, with exact sums in every node and a weighted path length
below that of every assignment of depths to the trees of the queue that
satisfies the Kraft inequality. -/
theorem mergeLoop_spec : ∀ (fuel : Nat) (h : List Node), h.length ≤ fuel + 1 → h ≠ [] →
    IsHeap Node.freq h h.length → (∀ t ∈ h, t.Full) →
    ∃ root, mergeLoop fuel h = [root] ∧ root.Full ∧
      root.leaves.Perm (h.flatMap Node.leaves) ∧
      ((∀ t ∈ h, t.WellFormed ∧ 0 ≤ t.freq) → (h.map Node.freq).sum ≤ 2147483647 →
        root.WellFormed ∧
        ∀ ps : List (Node × Nat), (ps.map Prod.fst).Perm h →
          kraft (ps.map Prod.snd) ≤ 1 →
          root.wpl 0 ≤ ((ps.map Prod.fst).map (fun t => t.wpl 0)).sum + wsum Node.freq ps) := by
  have single : ∀ t : Node, (∀ x ∈ [t], x.WellFormed ∧ 0 ≤ x.freq) →
      t.WellFormed ∧ ∀ ps : List (Node × Nat), (ps.map Prod.fst).Perm [t] →
        kraft (ps.map Prod.snd) ≤ 1 →
        t.wpl 0 ≤ ((ps.map Prod.fst).map (fun t => t.wpl 0)).sum + wsum Node.freq ps := by
    intro t h0
    have h0t := h0 t (List.mem_singleton_self t)
    refine ⟨h0t.1, ?_⟩
    intro ps hps _
    match ps, hps with
    | [(t2, d)], hps =>
      simp only [List.map_cons, List.map_nil, List.perm_singleton, List.cons.injEq,
        and_true] at hps
      subst hps
      simp only [List.map_cons, List.map_nil, List.sum_cons, List.sum_nil, wsum]
      have : (0 : Int) ≤ t2.freq * (d : Int) := mul_nonneg h0t.2 (by positivity)
      linarith
    | [], hps => simp at hps
    | _ :: _ :: _, hps => have := hps.length_eq; simp at this
  intro fuel
  induction fuel with
  | zero =>
    intro h hlen hne hh hfull
    match h, hlen, hne with
    | [t], _, _ =>
      exact ⟨t, rfl, hfull t (List.mem_singleton_self t), by simp, fun h0 _ => single t h0⟩
    | [], _, hne => exact absurd rfl hne
    | _ :: _ :: _, hlen, _ => simp at hlen
  | succ fuel ih =>
    intro h hlen hne hh hfull
    by_cases h1 : h.length > 1
    · obtain ⟨left, hleft⟩ : ∃ left, top h = some left := by
        cases h with
        | nil => exact absurd rfl hne
        | cons a _ => exact ⟨a, rfl⟩
      obtain ⟨q1, q2⟩ := pop_spec h left hleft hh
      have hlen1 : (pop h).length = h.length - 1 := by
        have := q2.length_eq; simp only [List.length_cons] at this; omega
      obtain ⟨right, hright⟩ : ∃ right, top (pop h) = some right := by
        cases hp : pop h with
        | nil => rw [hp] at hlen1; simp at hlen1; omega
        | cons a _ => exact ⟨a, rfl⟩
      obtain ⟨r1, r2⟩ := pop_spec (pop h) right hright q1
      have hlen2 : (pop (pop h)).length = h.length - 2 := by
        have := r2.length_eq; simp only [List.length_cons] at this; omega
      set newNode := Node.mk '0' (wrapInt (left.freq + right.freq)) left right with hnew
      obtain ⟨s1, s2⟩ := push_spec (pop (pop h)) newNode r1
      have hperm : (left :: right :: pop (pop h)).Perm h := (r2.cons left).trans q2
      have hleftfull : left.Full := hfull left (hperm.subset (by simp))
      have hrightfull : right.Full := hfull right (hperm.subset (by simp))
      have hnewfull : newNode.Full := Or.inr ⟨hleftfull, hrightfull⟩
      have hfull3 : ∀ t ∈ push (pop (pop h)) newNode, t.Full := by
        intro t ht
        rcases List.mem_cons.mp (s2.subset ht) with e | e
        · rw [e]; exact hnewfull
        · exact hfull t (hperm.subset (by simp [e]))
      have hlen3 : (push (pop (pop h)) newNode).length ≤ fuel + 1 := by
        have := s2.length_eq; simp only [List.length_cons] at this; omega
      have hne3 : push (pop (pop h)) newNode ≠ [] := by
        intro e; have := s2.length_eq; rw [e] at this; simp at this
      obtain ⟨root, e1, e2, e3, e4⟩ := ih (push (pop (pop h)) newNode) hlen3 hne3 s1 hfull3
      refine ⟨root, ?_, e2, ?_, ?_⟩
      · simp only [mergeLoop, if_pos h1, hleft, hright]
        exact e1
      · refine e3.trans ((s2.flatMap_right Node.leaves).trans ?_)
        rw [List.flatMap_cons, leaves_merge _ _ _ _ hleftfull.not_null]
        have := hperm.flatMap_right Node.leaves
        simp only [List.flatMap_cons] at this
        rw [List.append_assoc]
        exact this
      · intro h0 hsum
        have hl0 := h0 left (hperm.subset (by simp))
        have hr0 := h0 right (hperm.subset (by simp))
        have hrest0 : ∀ t ∈ pop (pop h), 0 ≤ t.freq := fun t ht =>
          (h0 t (hperm.subset (by simp [ht]))).2
        have hrestsum : 0 ≤ ((pop (pop h)).map Node.freq).sum :=
          List.sum_nonneg (by
            intro x hx
            obtain ⟨t, ht, rfl⟩ := List.mem_map.mp hx
            exact hrest0 t ht)
        have hsplit : (h.map Node.freq).sum
            = left.freq + (right.freq + ((pop (pop h)).map Node.freq).sum) := by
          rw [← (hperm.map Node.freq).sum_eq]; simp
        have hexact : wrapInt (left.freq + right.freq) = left.freq + right.freq :=
          wrapInt_eq _ (by linarith [hl0.2, hr0.2]) (by linarith)
        have hfreq : newNode.freq = left.freq + right.freq := hexact
        have hnewwf : newNode.WellFormed := Or.inr ⟨hl0.1, hr0.1, hexact⟩
        have h03 : ∀ t ∈ push (pop (pop h)) newNode, t.WellFormed ∧ 0 ≤ t.freq := by
          intro t ht
          rcases List.mem_cons.mp (s2.subset ht) with e | e
          · rw [e]
            exact ⟨hnewwf, by rw [hfreq]; linarith [hl0.2, hr0.2]⟩
          · exact h0 t (hperm.subset (by simp [e]))
        have hsum3 : ((push (pop (pop h)) newNode).map Node.freq).sum ≤ 2147483647 := by
          rw [(s2.map Node.freq).sum_eq]
          simp only [List.map_cons, List.sum_cons, hfreq]
          linarith
        obtain ⟨w1, w2⟩ := e4 h03 hsum3
        refine ⟨w1, ?_⟩
        intro ps hps hk
        have hminL : ∀ x ∈ right :: pop (pop h), left.freq ≤ x.freq := by
          intro x hx
          exact top_le h left hleft hh x (hperm.subset (List.mem_cons_of_mem _ hx))
        have hminR : ∀ x ∈ pop (pop h), right.freq ≤ x.freq := by
          intro x hx
          exact top_le (pop h) right hright q1 x (r2.subset (List.mem_cons_of_mem _ hx))
        obtain ⟨qs, g1, g2, g3⟩ := merge_two_lightest Node.freq ps left right newNode
          (pop (pop h)) (hps.trans hperm.symm) hminL hminR hl0.2 hfreq hk
        have hbound := w2 qs (g1.trans s2.symm) g2
        have hsum1 : ((qs.map Prod.fst).map (fun t => t.wpl 0)).sum
            = newNode.wpl 0 + ((pop (pop h)).map (fun t => t.wpl 0)).sum := by
          rw [(g1.map _).sum_eq]; simp
        have hsum2 : ((ps.map Prod.fst).map (fun t => t.wpl 0)).sum
            = left.wpl 0 + (right.wpl 0 + ((pop (pop h)).map (fun t => t.wpl 0)).sum) := by
          rw [((hps.trans hperm.symm).map _).sum_eq]; simp
        rw [hsum1, hnew, wpl_merge _ _ _ _ hl0.1 hr0.1] at hbound
        rw [hsum2]
        linarith
    · have hl1 : h.length = 1 := by
        cases h with
        | nil => exact absurd rfl hne
        | cons a t => simp only [List.length_cons] at h1 ⊢; omega
      match h, hl1 with
      | [t], _ =>
        exact ⟨t, by simp [mergeLoop], hfull t (List.mem_singleton_self t), by simp,
          fun h0 _ => single t h0⟩

theorem intSums_new (ch : Char) (f : Int) : (Node.new ch f).IntSums :=
  Or.inl ⟨rfl, rfl⟩

/-- The merge loop keeps the weights of the trees in the queue `int` sums. -/
theorem mergeLoop_intSums : ∀ (fuel : Nat) (h : List Node),
    IsHeap Node.freq h h.length → (∀ t ∈ h, t.IntSums) →
    ∀ t ∈ mergeLoop fuel h, t.IntSums := by
  intro fuel
  induction fuel with
  | zero => intro h _ hs t ht; exact hs t ht
  | succ fuel ih =>
    intro h hh hs
    by_cases h1 : h.length > 1
    · cases hleft : top h with
      | none =>
        simp only [mergeLoop, if_pos h1, hleft]
        exact hs
      | some left =>
        obtain ⟨q1, q2⟩ := pop_spec h left hleft hh
        cases hright : top (pop h) with
        | none =>
          simp only [mergeLoop, if_pos h1, hleft, hright]
          exact hs
        | some right =>
          obtain ⟨r1, r2⟩ := pop_spec (pop h) right hright q1
          obtain ⟨s1, s2⟩ := push_spec (pop (pop h))
            (Node.mk '0' (wrapInt (left.freq + right.freq)) left right) r1
          have hperm : (left :: right :: pop (pop h)).Perm h := (r2.cons left).trans q2
          simp only [mergeLoop, if_pos h1, hleft, hright]
          apply ih _ s1
          intro t ht
          rcases List.mem_cons.mp (s2.subset ht) with e | e
          · rw [e]
            exact Or.inr ⟨hs left (hperm.subset (by simp)),
              hs right (hperm.subset (by simp)), rfl⟩
          · exact hs t (hperm.subset (by simp [e]))
    · simp only [mergeLoop, if_neg h1]
      exact hs

/-! ## The objects at addresses and the trees they hold -/

theorem tree_freq (p : NodeAt) : p.tree.freq = p.freq := by
  cases p <;> rfl

theorem tree_eq_nullptr (p : NodeAt) : p.tree = Node.nullptr ↔ p = NodeAt.nullptr := by
  cases p <;> simp [NodeAt.tree]

theorem CompareAt_eq : CompareAt = fun a b => Compare a.tree b.tree := by
  funext a b
  simp only [CompareAt, Compare, tree_freq]

theorem push_heap_tree (l : List NodeAt) :
    (push_heap CompareAt l).map NodeAt.tree = push_heap Compare (l.map NodeAt.tree) := by
  rw [CompareAt_eq]
  exact push_heap_map NodeAt.tree Compare l

theorem pop_heap_tree (l : List NodeAt) :
    ((pop_heap CompareAt l).dropLast).map NodeAt.tree = pop (l.map NodeAt.tree) := by
  rw [CompareAt_eq]
  unfold pop
  rw [← pop_heap_map NodeAt.tree Compare, List.dropLast_eq_take, List.dropLast_eq_take,
    List.map_take, List.length_map]

theorem head_tree (l : List NodeAt) : top (l.map NodeAt.tree) = l.head?.map NodeAt.tree := by
  cases l <;> rfl

/-- The first loop on pointers fills the queue the first loop on trees fills. -/
theorem fillHeapAt_tree (alloc : Nat → Nat) : ∀ (pairs : List (Char × Int)) (allocated : Nat)
    (minHeap : List NodeAt),
    (fillHeapAt alloc pairs allocated minHeap).map NodeAt.tree
      = pairs.foldl (fun minHeap pair => push minHeap (Node.new pair.1 pair.2))
          (minHeap.map NodeAt.tree) := by
  intro pairs
  induction pairs with
  | nil => intro allocated minHeap; rfl
  | cons pair rest ih =>
    intro allocated minHeap
    simp only [fillHeapAt, List.foldl_cons]
    rw [ih, push_heap_tree]
    simp [push, NodeAt.tree, Node.new]

/-- The merge loop on pointers leaves the queue the merge loop on trees
leaves, whatever the addresses. -/
theorem mergeLoopAt_tree (alloc : Nat → Nat) : ∀ (fuel allocated : Nat)
    (minHeap : List NodeAt),
    (mergeLoopAt alloc fuel allocated minHeap).map NodeAt.tree
      = mergeLoop fuel (minHeap.map NodeAt.tree) := by
  intro fuel
  induction fuel with
  | zero => intro allocated minHeap; rfl
  | succ fuel ih =>
    intro allocated minHeap
    simp only [mergeLoopAt, mergeLoop, List.length_map]
    by_cases h1 : minHeap.length > 1
    · simp only [if_pos h1, head_tree, ← pop_heap_tree]
      cases hl : minHeap.head? with
      | none => simp
      | some left =>
        simp only [Option.map_some']
        cases hr : ((pop_heap CompareAt minHeap).dropLast).head? with
        | none => simp
        | some right =>
          simp only [Option.map_some']
          rw [ih, push_heap_tree]
          simp [push, NodeAt.tree, tree_freq]
    · simp only [if_neg h1]

/-- The run on pointers returns a pointer to the tree the run on trees
returns, and is undefined when that one is. -/
theorem buildHuffmanTreeAt_tree {T : Type} [PairRange T] (alloc : Nat → Nat) (frequency : T) :
    (match buildHuffmanTreeAt alloc frequency with
      | Outcome.returns root => Outcome.returns root.tree
      | Outcome.undefined => Outcome.undefined)
      = buildHuffmanTree (PairRange.pairs frequency) := by
  have hf : (fillHeapAt alloc (PairRange.pairs frequency) 0 []).map NodeAt.tree
      = fillHeap (PairRange.pairs frequency) := by
    rw [fillHeapAt_tree]; rfl
  have hlen : (fillHeapAt alloc (PairRange.pairs frequency) 0 []).length
      = (fillHeap (PairRange.pairs frequency)).length := by
    rw [← hf, List.length_map]
  have hm := mergeLoopAt_tree alloc (fillHeapAt alloc (PairRange.pairs frequency) 0 []).length
    (PairRange.pairs frequency).length (fillHeapAt alloc (PairRange.pairs frequency) 0 [])
  rw [hf, hlen] at hm
  simp only [buildHuffmanTreeAt, buildHuffmanTree]
  rw [← hm, head_tree, hlen]
  cases (mergeLoopAt alloc (fillHeap (PairRange.pairs frequency)).length
      (PairRange.pairs frequency).length
      (fillHeapAt alloc (PairRange.pairs frequency) 0 [])).head? <;> rfl

theorem buildCodesAt_tree : ∀ (p : NodeAt) (str : List Char) (m : CodeMap),
    buildCodesAt p str m = buildCodes p.tree str m := by
  intro p
  induction p with
  | nullptr => intro str m; rfl
  | obj address ch f l r ihl ihr =>
    intro str m
    simp only [buildCodesAt, NodeAt.tree, buildCodes, tree_eq_nullptr, ihl, ihr]

/-! ## buildHuffmanTree -/

theorem isHeap_nil : IsHeap Node.freq ([] : List Node) 0 := by
  intro i x p _ hi; omega

theorem foldl_push_spec : ∀ (frequency : List (Char × Int)) (h : List Node),
    IsHeap Node.freq h h.length →
    IsHeap Node.freq
      (frequency.foldl (fun minHeap pair => push minHeap (Node.new pair.1 pair.2)) h)
      (frequency.foldl (fun minHeap pair => push minHeap (Node.new pair.1 pair.2)) h).length ∧
    (frequency.foldl (fun minHeap pair => push minHeap (Node.new pair.1 pair.2)) h).Perm
      (h ++ frequency.map (fun pair => Node.new pair.1 pair.2)) := by
  intro frequency
  induction frequency with
  | nil => intro h hh; simpa using hh
  | cons e rest ih =>
    intro h hh
    obtain ⟨p1, p2⟩ := push_spec h (Node.new e.1 e.2) hh
    obtain ⟨i1, i2⟩ := ih (push h (Node.new e.1 e.2)) p1
    refine ⟨i1, i2.trans ?_⟩
    simp only [List.map_cons]
    refine (p2.append_right _).trans ?_
    simpa using (List.perm_middle).symm

theorem fillHeap_spec (frequency : List (Char × Int)) :
    IsHeap Node.freq (fillHeap frequency) (fillHeap frequency).length ∧
    (fillHeap frequency).Perm (frequency.map (fun pair => Node.new pair.1 pair.2)) := by
  have := foldl_push_spec frequency [] isHeap_nil
  simpa [fillHeap] using this

theorem flatMap_leaves_new (frequency : List (Char × Int)) :
    (frequency.map (fun pair => Node.new pair.1 pair.2)).flatMap Node.leaves = frequency := by
  induction frequency with
  | nil => rfl
  | cons e rest ih =>
    simp only [List.map_cons, List.flatMap_cons, leaves_new, ih]
    rfl

theorem wpl_new_sum (frequency : List (Char × Int)) :
    ((frequency.map (fun pair => Node.new pair.1 pair.2)).map (fun t => t.wpl 0)).sum = 0 := by
  induction frequency with
  | nil => rfl
  | cons e rest ih =>
    simp only [List.map_cons, List.sum_cons, ih]
    simp [Node.new, Node.wpl]

theorem freq_new_sum (frequency : List (Char × Int)) :
    ((frequency.map (fun pair => Node.new pair.1 pair.2)).map Node.freq).sum
      = (frequency.map Prod.snd).sum := by
  induction frequency with
  | nil => rfl
  | cons e rest ih =>
    simp only [List.map_cons, List.sum_cons, ih]
    rfl

/-- What `buildHuffmanTree` returns for a table that is not empty: a full tree
with the entries of the table as leaves; and, when the counts are not negative
and their sum is in the range of `int`, a tree with exact sums in every node
and the least weighted path length. -/
theorem buildHuffmanTree_spec (frequency : List (Char × Int)) (hne : frequency ≠ []) :
    ∃ root, buildHuffmanTree frequency = Outcome.returns root ∧ root.Full ∧
      root.leaves.Perm frequency ∧
      ((∀ e ∈ frequency, 0 ≤ e.2) → (frequency.map Prod.snd).sum ≤ 2147483647 →
        root.WellFormed ∧
        ∀ ps : List (Node × Nat),
          (ps.map Prod.fst).Perm (frequency.map (fun pair => Node.new pair.1 pair.2)) →
          kraft (ps.map Prod.snd) ≤ 1 → root.wpl 0 ≤ wsum Node.freq ps) := by
  obtain ⟨f1, f2⟩ := fillHeap_spec frequency
  have hne2 : fillHeap frequency ≠ [] := by
    intro e
    have := f2.length_eq
    rw [e] at this
    simp only [List.length_nil, List.length_map] at this
    exact hne (List.length_eq_zero.mp this.symm)
  have hfull : ∀ t ∈ fillHeap frequency, t.Full := by
    intro t ht
    obtain ⟨e, _, rfl⟩ := List.mem_map.mp (f2.subset ht)
    exact full_new _ _
  obtain ⟨root, e1, e2, e3, e4⟩ := mergeLoop_spec (fillHeap frequency).length
    (fillHeap frequency) (by omega) hne2 f1 hfull
  refine ⟨root, ?_, e2, ?_, ?_⟩
  · simp only [buildHuffmanTree, e1, top, List.head?_cons]
  · have := e3.trans (f2.flatMap_right Node.leaves)
    rwa [flatMap_leaves_new] at this
  · intro h0 hsum
    have h0t : ∀ t ∈ fillHeap frequency, t.WellFormed ∧ 0 ≤ t.freq := by
      intro t ht
      obtain ⟨e, he, rfl⟩ := List.mem_map.mp (f2.subset ht)
      exact ⟨wellFormed_new _ _, h0 e he⟩
    have hs : ((fillHeap frequency).map Node.freq).sum ≤ 2147483647 := by
      rw [(f2.map Node.freq).sum_eq, freq_new_sum]; exact hsum
    obtain ⟨w1, w2⟩ := e4 h0t hs
    refine ⟨w1, ?_⟩
    intro ps hps hk
    have := w2 ps (hps.trans f2.symm) hk
    rwa [(hps.map _).sum_eq, wpl_new_sum, zero_add] at this

/-! ### Any tree as an assignment of depths -/

theorem depths_fst : ∀ (t : Node) (k : Nat),
    (t.depths k).map Prod.fst = t.leaves.map (fun pair => Node.new pair.1 pair.2) := by
  intro t
  induction t with
  | nullptr => intro k; rfl
  | mk ch f l r ihl ihr =>
    intro k
    by_cases hleaf : l = Node.nullptr ∧ r = Node.nullptr
    · simp [Node.depths, Node.leaves, if_pos hleaf]
    · simp [Node.depths, Node.leaves, if_neg hleaf, ihl, ihr]

theorem depths_wsum : ∀ (t : Node) (k : Nat), wsum Node.freq (t.depths k) = t.wpl k := by
  intro t
  induction t with
  | nullptr => intro k; rfl
  | mk ch f l r ihl ihr =>
    intro k
    by_cases hleaf : l = Node.nullptr ∧ r = Node.nullptr
    · simp [Node.depths, Node.wpl, if_pos hleaf, wsum, Node.new, Node.freq]
    · have e1 := ihl (k + 1)
      have e2 := ihr (k + 1)
      simp only [wsum] at e1 e2 ⊢
      simp only [Node.depths, Node.wpl, if_neg hleaf, List.map_append, List.sum_append, e1, e2]

theorem depths_kraft : ∀ (t : Node) (k : Nat),
    kraft ((t.depths k).map Prod.snd) ≤ (1 / 2 : ℚ) ^ k := by
  intro t
  induction t with
  | nullptr => intro k; simp only [Node.depths, List.map_nil, kraft_nil]; positivity
  | mk ch f l r ihl ihr =>
    intro k
    by_cases hleaf : l = Node.nullptr ∧ r = Node.nullptr
    · simp [Node.depths, if_pos hleaf, kraft]
    · simp only [Node.depths, if_neg hleaf, List.map_append, kraft_append]
      have e1 := ihl (k + 1)
      have e2 := ihr (k + 1)
      have : (1 / 2 : ℚ) ^ (k + 1) + (1 / 2) ^ (k + 1) = (1 / 2) ^ k := by
        rw [pow_succ]; ring
      linarith

/-- The tree of `buildHuffmanTree` has the least weighted path length among
all trees with the same leaves, for counts that are not negative and whose sum
is in the range of `int`. -/
theorem buildHuffmanTree_le (frequency : List (Char × Int)) (hne : frequency ≠ [])
    (hpos : ∀ e ∈ frequency, 0 ≤ e.2) (hsum : (frequency.map Prod.snd).sum ≤ 2147483647)
    (root : Node) (hroot : buildHuffmanTree frequency = Outcome.returns root)
    (t : Node) (ht : t.leaves.Perm frequency) : root.wpl 0 ≤ t.wpl 0 := by
  obtain ⟨root2, e1, _, _, e4⟩ := buildHuffmanTree_spec frequency hne
  rw [hroot] at e1
  cases e1
  have h1 : ((t.depths 0).map Prod.fst).Perm
      (frequency.map (fun pair => Node.new pair.1 pair.2)) := by
    rw [depths_fst]; exact ht.map _
  have h2 : kraft ((t.depths 0).map Prod.snd) ≤ 1 := by
    simpa using depths_kraft t 0
  have := (e4 hpos hsum).2 (t.depths 0) h1 h2
  rwa [depths_wsum] at this

/-- In the tree `buildHuffmanTree` returns, the `freq` of every node with
children is the `int` sum of the `freq` of the two, whatever the counts. -/
theorem buildHuffmanTree_intSums (frequency : List (Char × Int)) (root : Node)
    (hroot : buildHuffmanTree frequency = Outcome.returns root) : root.IntSums := by
  obtain ⟨f1, f2⟩ := fillHeap_spec frequency
  have hs : ∀ t ∈ fillHeap frequency, t.IntSums := by
    intro t ht
    obtain ⟨e, _, rfl⟩ := List.mem_map.mp (f2.subset ht)
    exact intSums_new _ _
  have hall := mergeLoop_intSums (fillHeap frequency).length (fillHeap frequency) f1 hs
  simp only [buildHuffmanTree] at hroot
  cases hm : mergeLoop (fillHeap frequency).length (fillHeap frequency) with
  | nil => rw [hm] at hroot; simp [top] at hroot
  | cons a t =>
    rw [hm] at hroot hall
    simp only [top, List.head?_cons, Outcome.returns.injEq] at hroot
    subst hroot
    exact hall a (List.mem_cons_self _ _)

/-! ## decode -/

/-! ### decode along the paths of the tree -/

/-- Walking a whole path to a leaf appends the character of the leaf (a space
for `'_'`) and restarts at the root. -/
theorem decodeLoop_leafAt (root : Node) : ∀ (t : Node) (p rest acc : List Char) (c : Char),
    t.leafAt p = some c → p ≠ [] →
    decodeLoop root (p ++ rest) t acc
      = decodeLoop root rest root (acc ++ [if c = '_' then ' ' else c]) := by
  intro t
  induction t with
  | nullptr => intro p rest acc c h; simp [Node.leafAt] at h
  | mk ch f l r ihl ihr =>
    intro p rest acc c h hp
    cases p with
    | nil => exact absurd rfl hp
    | cons b p =>
      by_cases hleaf : l = Node.nullptr ∧ r = Node.nullptr
      · simp [Node.leafAt, if_pos hleaf] at h
      · simp only [Node.leafAt, if_neg hleaf] at h
        by_cases hb : b = '0'
        · rw [if_pos hb] at h
          simp only [List.cons_append, decodeLoop, if_pos hb]
          cases l with
          | nullptr => simp [Node.leafAt] at h
          | mk ch2 f2 l2 r2 =>
            simp only
            by_cases hleaf2 : l2 = Node.nullptr ∧ r2 = Node.nullptr
            · rw [if_pos hleaf2]
              cases p with
              | nil =>
                simp only [Node.leafAt, if_pos hleaf2] at h
                cases h; rfl
              | cons x p => simp [Node.leafAt, if_pos hleaf2] at h
            · rw [if_neg hleaf2]
              apply ihl p rest acc c h
              intro e; subst e
              simp [Node.leafAt, if_neg hleaf2] at h
        · rw [if_neg hb] at h
          by_cases hb1 : b = '1'
          · rw [if_pos hb1] at h
            simp only [List.cons_append, decodeLoop, if_neg hb]
            cases r with
            | nullptr => simp [Node.leafAt] at h
            | mk ch2 f2 l2 r2 =>
              simp only
              by_cases hleaf2 : l2 = Node.nullptr ∧ r2 = Node.nullptr
              · rw [if_pos hleaf2]
                cases p with
                | nil =>
                  simp only [Node.leafAt, if_pos hleaf2] at h
                  cases h; rfl
                | cons x p => simp [Node.leafAt, if_pos hleaf2] at h
              · rw [if_neg hleaf2]
                apply ihr p rest acc c h
                intro e; subst e
                simp [Node.leafAt, if_neg hleaf2] at h
          · rw [if_neg hb1] at h; cases h

/-- Walking an unfinished path appends nothing. -/
theorem decodeLoop_partial (root : Node) : ∀ (t : Node) (p q acc : List Char) (c : Char),
    t.leafAt (p ++ q) = some c → q ≠ [] → decodeLoop root p t acc = Outcome.returns acc := by
  intro t
  induction t with
  | nullptr => intro p q acc c h; simp [Node.leafAt] at h
  | mk ch f l r ihl ihr =>
    intro p q acc c h hq
    cases p with
    | nil => rfl
    | cons b p =>
      by_cases hleaf : l = Node.nullptr ∧ r = Node.nullptr
      · simp [Node.leafAt, if_pos hleaf] at h
      · simp only [List.cons_append, Node.leafAt, if_neg hleaf] at h
        have hne : p ++ q ≠ [] := by simp [hq]
        by_cases hb : b = '0'
        · rw [if_pos hb] at h
          simp only [decodeLoop, if_pos hb]
          cases l with
          | nullptr => simp [Node.leafAt] at h
          | mk ch2 f2 l2 r2 =>
            simp only
            by_cases hleaf2 : l2 = Node.nullptr ∧ r2 = Node.nullptr
            · cases hpq : p ++ q with
              | nil => exact absurd hpq hne
              | cons x y =>
                have h2 : (Node.mk ch2 f2 l2 r2).leafAt (p ++ q) = some c := h
                rw [hpq] at h2; simp [Node.leafAt, if_pos hleaf2] at h2
            · rw [if_neg hleaf2]
              exact ihl p q acc c h hq
        · rw [if_neg hb] at h
          by_cases hb1 : b = '1'
          · rw [if_pos hb1] at h
            simp only [decodeLoop, if_neg hb]
            cases r with
            | nullptr => simp [Node.leafAt] at h
            | mk ch2 f2 l2 r2 =>
              simp only
              by_cases hleaf2 : l2 = Node.nullptr ∧ r2 = Node.nullptr
              · cases hpq : p ++ q with
                | nil => exact absurd hpq hne
                | cons x y =>
                have h2 : (Node.mk ch2 f2 l2 r2).leafAt (p ++ q) = some c := h
                rw [hpq] at h2; simp [Node.leafAt, if_pos hleaf2] at h2
              · rw [if_neg hleaf2]
                exact ihr p q acc c h hq
          · rw [if_neg hb1] at h; cases h

/-- Decoding the codes of a sequence of symbols followed by an unfinished
path: the symbols are returned and the unfinished path is dropped. -/
theorem decodeLoop_codes (root : Node) (hnd : (root.leaves.map Prod.fst).Nodup)
    (hroot : root.leafAt [] = none) :
    ∀ (syms : List Char) (tail acc : List Char), (∀ s ∈ syms, s ∈ root.leaves.map Prod.fst) →
    decodeLoop root (syms.flatMap (buildCodes root [] []).at ++ tail) root acc
      = decodeLoop root tail root (acc ++ syms.map (fun s => if s = '_' then ' ' else s)) := by
  intro syms
  induction syms with
  | nil => intro tail acc _; simp
  | cons s syms ih =>
    intro tail acc hs
    obtain ⟨p, hp⟩ := exists_leafAt_of_mem root s (hs s (List.mem_cons_self _ _))
    have hlook := (lookup_buildCodes_iff root hnd s p).mpr hp
    have hat : (buildCodes root [] []).at s = p := by
      simp [CodeMap.at, hlook]
    have hpne : p ≠ [] := by
      intro e; subst e; rw [hroot] at hp; cases hp
    rw [List.flatMap_cons, hat, List.append_assoc, decodeLoop_leafAt root root p _ acc s hp hpne,
      ih tail _ (fun x hx => hs x (List.mem_cons_of_mem _ hx))]
    simp

/-! ## Properties of the tree and of the code table -/

theorem leafAt_nil_of_length (t : Node) (h : 2 ≤ t.leaves.length) : t.leafAt [] = none := by
  cases t with
  | nullptr => rfl
  | mk ch f l r =>
    by_cases hleaf : l = Node.nullptr ∧ r = Node.nullptr
    · simp [Node.leaves, if_pos hleaf] at h
    · simp [Node.leafAt, if_neg hleaf]

theorem at_assign_self (m : CodeMap) (key : Char) (v : List Char) :
    (m.assign key v).at key = v := by
  simp [CodeMap.at, lookup_assign]

theorem wpl_eq_code_lengths : ∀ (t : Node) (str : List Char) (m : CodeMap),
    (t.leaves.map Prod.fst).Nodup →
    t.wpl str.length
      = (t.leaves.map (fun e => e.2 * (((buildCodes t str m).at e.1).length : Int))).sum := by
  intro t
  induction t with
  | nullptr => intro str m _; rfl
  | mk ch f l r ihl ihr =>
    intro str m hnd
    by_cases hleaf : l = Node.nullptr ∧ r = Node.nullptr
    · simp [Node.wpl, Node.leaves, buildCodes, if_pos hleaf, at_assign_self]
    · simp only [Node.leaves, if_neg hleaf, List.map_append] at hnd
      have hndl := (List.nodup_append.mp hnd).1
      have hndr := (List.nodup_append.mp hnd).2.1
      have hdis := (List.nodup_append.mp hnd).2.2
      have e1 := ihl (str ++ ['0']) m hndl
      have e2 := ihr (str ++ ['1']) (buildCodes l (str ++ ['0']) m) hndr
      simp only [List.length_append, List.length_singleton] at e1 e2
      simp only [Node.wpl, Node.leaves, buildCodes, if_neg hleaf, List.map_append,
        List.sum_append, e1, e2]
      congr 2
      apply List.map_congr_left
      intro e he
      have hnot : e.1 ∉ r.leaves.map Prod.fst :=
        fun hr => hdis (List.mem_map_of_mem Prod.fst he) hr
      simp only [CodeMap.at]
      rw [lookup_buildCodes_of_not_mem r _ _ _ hnot]

/-- C2 (prefix-freeness): for every frequency table with at least one entry and
pairwise distinct symbols, `buildHuffmanTree` returns a tree, and in the code
table `buildCodes` derives from it any two distinct symbols of the table have
codes neither of which is an initial segment of the other. -/
theorem prefix_free_codes (frequency : List (Char × Int)) (hne : frequency ≠ [])
    (hnd : (frequency.map Prod.fst).Nodup) :
    ∃ root, buildHuffmanTree frequency = Outcome.returns root ∧
      ∀ a b, a ∈ frequency.map Prod.fst → b ∈ frequency.map Prod.fst → a ≠ b →
        ∃ ca cb, (buildCodes root [] []).lookup a = some ca ∧
          (buildCodes root [] []).lookup b = some cb ∧ ¬ ca <+: cb ∧ ¬ cb <+: ca := by
  obtain ⟨root, e1, _, e3, _⟩ := buildHuffmanTree_spec frequency hne
  have hsym : (root.leaves.map Prod.fst).Perm (frequency.map Prod.fst) := e3.map _
  have hnd2 : (root.leaves.map Prod.fst).Nodup := hsym.nodup_iff.mpr hnd
  refine ⟨root, e1, ?_⟩
  intro a b ha hb hab
  obtain ⟨pa, hpa⟩ := exists_leafAt_of_mem root a (hsym.symm.subset ha)
  obtain ⟨pb, hpb⟩ := exists_leafAt_of_mem root b (hsym.symm.subset hb)
  refine ⟨pa, pb, (lookup_buildCodes_iff root hnd2 a pa).mpr hpa,
    (lookup_buildCodes_iff root hnd2 b pb).mpr hpb, ?_, ?_⟩
  · rintro ⟨q, rfl⟩
    exact hab (leafAt_append root pa q a b hpa hpb).2
  · rintro ⟨q, rfl⟩
    exact hab (leafAt_append root pb q b a hpb hpa).2.symm

/-- C3 fails on the table a = b = c = d = 2^30: the first `int` sum wraps to
`-2^31`, the merged node is taken again at once, and the tree returned has the
weighted path length `9 * 2^30`, above the `8 * 2^30` of the balanced tree with
the same leaves. -/
theorem overflow_breaks_optimality :
    buildHuffmanTree
        [('a', 1073741824), ('b', 1073741824), ('c', 1073741824), ('d', 1073741824)]
      = Outcome.returns
          (Node.mk '0' 0
            (Node.mk '0' (-1073741824)
              (Node.mk '0' (-2147483648) (Node.new 'a' 1073741824) (Node.new 'c' 1073741824))
              (Node.new 'd' 1073741824))
            (Node.new 'b' 1073741824)) ∧
    (Node.mk '0' 0
        (Node.mk '0' (-1073741824)
          (Node.mk '0' (-2147483648) (Node.new 'a' 1073741824) (Node.new 'c' 1073741824))
          (Node.new 'd' 1073741824))
        (Node.new 'b' 1073741824)).wpl 0 = 9663676416 ∧
    (Node.mk '0' 0
        (Node.mk '0' 0 (Node.new 'a' 1073741824) (Node.new 'b' 1073741824))
        (Node.mk '0' 0 (Node.new 'c' 1073741824) (Node.new 'd' 1073741824))).leaves
      = [('a', 1073741824), ('b', 1073741824), ('c', 1073741824), ('d', 1073741824)] ∧
    (Node.mk '0' 0
        (Node.mk '0' 0 (Node.new 'a' 1073741824) (Node.new 'b' 1073741824))
        (Node.mk '0' 0 (Node.new 'c' 1073741824) (Node.new 'd' 1073741824))).wpl 0
      = 8589934592 ∧
    ¬ (Node.mk '0' 0
        (Node.mk '0' (-1073741824)
          (Node.mk '0' (-2147483648) (Node.new 'a' 1073741824) (Node.new 'c' 1073741824))
          (Node.new 'd' 1073741824))
        (Node.new 'b' 1073741824)).wpl 0
      ≤ (Node.mk '0' 0
        (Node.mk '0' 0 (Node.new 'a' 1073741824) (Node.new 'b' 1073741824))
        (Node.mk '0' 0 (Node.new 'c' 1073741824) (Node.new 'd' 1073741824))).wpl 0 := by
  decide

/-- C3 as amended (optimality without overflow): for every frequency table
with at least one entry and positive counts whose sum is at most `2^31 - 1`,
`buildHuffmanTree` returns a tree whose leaves are the entries of the table and
whose weighted path length (sum of count times leaf depth) is not above that of
any tree with these leaves; with distinct symbols this weighted path length is
the sum of count times code length from `buildCodes`. -/
theorem huffman_optimal (frequency : List (Char × Int)) (hne : frequency ≠ [])
    (hpos : ∀ e ∈ frequency, 0 < e.2) (hsum : (frequency.map Prod.snd).sum ≤ 2147483647) :
    ∃ root, buildHuffmanTree frequency = Outcome.returns root ∧
      root.leaves.Perm frequency ∧
      (∀ t : Node, t.leaves.Perm frequency → root.wpl 0 ≤ t.wpl 0) ∧
      ((frequency.map Prod.fst).Nodup → root.wpl 0
        = (frequency.map
            (fun e => e.2 * (((buildCodes root [] []).at e.1).length : Int))).sum) := by
  obtain ⟨root, e1, _, e3, _⟩ := buildHuffmanTree_spec frequency hne
  refine ⟨root, e1, e3, ?_, ?_⟩
  · intro t ht
    exact buildHuffmanTree_le frequency hne (fun e he => le_of_lt (hpos e he)) hsum root e1 t ht
  · intro hnd
    have hnd2 : (root.leaves.map Prod.fst).Nodup := (e3.map Prod.fst).nodup_iff.mpr hnd
    have := wpl_eq_code_lengths root [] [] hnd2
    simp only [List.length_nil] at this
    rw [this]
    exact (e3.map _).sum_eq

/-- C10 (code table is the set of root-to-leaf paths): for every tree whose
leaves carry pairwise distinct symbols, the keys of the map `buildCodes` makes
from the empty string are exactly the leaf symbols and a symbol is bound to `p`
exactly when the path `p` (`'0'` left, `'1'` right) leads from the root to its
leaf; for the tree built from a non-empty table the keys are exactly the
symbols of the table. -/
theorem code_table_paths (root : Node) (hnd : (root.leaves.map Prod.fst).Nodup)
    (frequency : List (Char × Int)) (hne : frequency ≠ []) :
    (∀ c, c ∈ (buildCodes root [] []).map Prod.fst ↔ c ∈ root.leaves.map Prod.fst) ∧
    (∀ c p, (buildCodes root [] []).lookup c = some p ↔ root.leafAt p = some c) ∧
    ∃ built, buildHuffmanTree frequency = Outcome.returns built ∧
      ∀ c, c ∈ (buildCodes built [] []).map Prod.fst ↔ c ∈ frequency.map Prod.fst := by
  refine ⟨?_, ?_, ?_⟩
  · intro c
    simpa using keys_buildCodes root [] [] c
  · intro c p
    exact lookup_buildCodes_iff root hnd c p
  · obtain ⟨built, e1, _, e3, _⟩ := buildHuffmanTree_spec frequency hne
    refine ⟨built, e1, ?_⟩
    intro c
    have := keys_buildCodes built [] [] c
    simp only [List.map_nil, List.not_mem_nil, or_false] at this
    rw [this]
    exact (e3.map Prod.fst).mem_iff

/-- C7 as amended (no corruption detection): for a table with at least two
entries and distinct symbols, when the bits are the codes of a sequence of
symbols followed by an unfinished root-to-leaf path, `decode` returns the text
of the finished symbols and reports no failure. -/
theorem decode_drops_unfinished_path (frequency : List (Char × Int))
    (h2 : 2 ≤ frequency.length) (hnd : (frequency.map Prod.fst).Nodup)
    (syms : List Char) (hs : ∀ s ∈ syms, s ∈ frequency.map Prod.fst)
    (c : Char) (hc : c ∈ frequency.map Prod.fst) :
    ∃ root, buildHuffmanTree frequency = Outcome.returns root ∧
      ∀ p q, q ≠ [] → (buildCodes root [] []).at c = p ++ q →
        decode root (syms.flatMap (buildCodes root [] []).at ++ p)
          = Outcome.returns (syms.map (fun s => if s = '_' then ' ' else s)) := by
  have hne : frequency ≠ [] := by
    intro e; rw [e] at h2; simp at h2
  obtain ⟨root, e1, _, e3, _⟩ := buildHuffmanTree_spec frequency hne
  have hsym : (root.leaves.map Prod.fst).Perm (frequency.map Prod.fst) := e3.map _
  have hnd2 : (root.leaves.map Prod.fst).Nodup := hsym.nodup_iff.mpr hnd
  have hroot : root.leafAt [] = none :=
    leafAt_nil_of_length root (by rw [e3.length_eq]; exact h2)
  refine ⟨root, e1, ?_⟩
  intro p q hq hcode
  obtain ⟨pc, hpc⟩ := exists_leafAt_of_mem root c (hsym.symm.subset hc)
  have hlook := (lookup_buildCodes_iff root hnd2 c pc).mpr hpc
  have hat : (buildCodes root [] []).at c = pc := by simp [CodeMap.at, hlook]
  rw [hat] at hcode
  rw [hcode] at hpc
  unfold decode
  rw [decodeLoop_codes root hnd2 hroot syms p [] (fun s h => hsym.symm.subset (hs s h)),
    decodeLoop_partial root root p q _ c hpc hq]
  simp

/-! ## Properties of compress and decompress -/

theorem append_eq_pair {α : Type} (s t : List α) (u v : α) (h : s ++ t = [u, v]) :
    (s = [] ∧ t = [u, v]) ∨ (s = [u] ∧ t = [v]) ∨ (s = [u, v] ∧ t = []) := by
  match s, h with
  | [], h => exact Or.inl ⟨rfl, h⟩
  | [a], h =>
    simp only [List.singleton_append, List.cons.injEq] at h
    exact Or.inr (Or.inl ⟨by rw [h.1], h.2⟩)
  | [a, b], h =>
    simp only [List.cons_append, List.nil_append, List.cons.injEq] at h
    obtain ⟨h1, h2, h3⟩ := h
    exact Or.inr (Or.inr ⟨by rw [h1, h2], h3⟩)
  | a :: b :: c :: s, h =>
    have := congrArg List.length h
    simp at this

theorem perm_two {α : Type} (y z : α) (m : List α) (h : m.Perm [y, z]) :
    m = [y, z] ∨ m = [z, y] := by
  obtain ⟨s, t, rfl⟩ := List.append_of_mem (h.symm.subset (List.mem_cons_self y _))
  have h2 : (s ++ t).Perm [z] := (List.perm_middle.symm.trans h).cons_inv
  have h3 := List.perm_singleton.mp h2
  match s, h3 with
  | [], h3 => left; simp only [List.nil_append] at h3 ⊢; rw [h3]
  | [a], h3 =>
    simp only [List.singleton_append, List.cons.injEq] at h3
    right; rw [h3.1, h3.2]; rfl
  | a :: b :: s, h3 =>
    have := congrArg List.length h3
    simp at this

theorem perm_three {α : Type} (x y z : α) (l : List α) (h : l.Perm [x, y, z]) :
    l = [x, y, z] ∨ l = [x, z, y] ∨ l = [y, x, z] ∨ l = [y, z, x] ∨ l = [z, x, y]
      ∨ l = [z, y, x] := by
  obtain ⟨s, t, rfl⟩ := List.append_of_mem (h.symm.subset (List.mem_cons_self x _))
  have h2 : (s ++ t).Perm [y, z] := (List.perm_middle.symm.trans h).cons_inv
  rcases perm_two y z _ h2 with h3 | h3
  · rcases append_eq_pair s t y z h3 with ⟨rfl, rfl⟩ | ⟨rfl, rfl⟩ | ⟨rfl, rfl⟩ <;> simp
  · rcases append_eq_pair s t z y h3 with ⟨rfl, rfl⟩ | ⟨rfl, rfl⟩ | ⟨rfl, rfl⟩ <;> simp

/-- C1, evaluated at the text `ab`: in both iteration orders of the table the
artifact of `compress` carries the count line `2`, `decompress` strips two of
the eight bits and returns six characters instead of the two of the text. -/
theorem round_trip_fails_on_ab :
    compress id "ab".toList = Outcome.returns "2\na 1\nb 1\n2\n@".toList ∧
    decompress "2\na 1\nb 1\n2\n@".toList = Outcome.returns "abaaaa".toList ∧
    compress List.reverse "ab".toList
      = Outcome.returns ("2\nb 1\na 1\n2\n".toList ++ [Char.ofNat 128]) ∧
    decompress ("2\nb 1\na 1\n2\n".toList ++ [Char.ofNat 128])
      = Outcome.returns "abbbbb".toList := by
  decide

/-- C4 (example scenario): the table `compress` counts for the text `ab ba` is
a=2, b=2, `_`=1, and in every iteration order of that table `compress` returns
an artifact from which `decompress` returns exactly `ab ba`. -/
theorem example_ab_ba (order : List (Char × Int) → List (Char × Int))
    (h : (order (countFrequency "ab ba".toList)).Perm (countFrequency "ab ba".toList)) :
    countFrequency "ab ba".toList = [('a', 2), ('b', 2), ('_', 1)] ∧
    ∃ file, compress order "ab ba".toList = Outcome.returns file ∧
      decompress file = Outcome.returns "ab ba".toList := by
  have hc : countFrequency "ab ba".toList = [('a', 2), ('b', 2), ('_', 1)] := by decide
  refine ⟨hc, ?_⟩
  unfold compress
  rw [hc] at h ⊢
  rcases perm_three _ _ _ _ h with e | e | e | e | e | e <;> rw [e]
  · exact ⟨"3\na 2\nb 2\n_ 1\n0\nv".toList, by decide, by decide⟩
  · exact ⟨"3\na 2\n_ 1\nb 2\n0\n".toList ++ [Char.ofNat 211], by decide, by decide⟩
  · exact ⟨"3\nb 2\na 2\n_ 1\n0\n".toList ++ [Char.ofNat 211], by decide, by decide⟩
  · exact ⟨"3\nb 2\n_ 1\na 2\n0\nv".toList, by decide, by decide⟩
  · exact ⟨"3\n_ 1\na 2\nb 2\n0\n".toList ++ [Char.ofNat 211], by decide, by decide⟩
  · exact ⟨"3\n_ 1\nb 2\na 2\n0\nv".toList, by decide, by decide⟩

/-- C5, evaluated: for a table with one entry `buildHuffmanTree` returns the
single leaf and `buildCodes` binds its symbol to the empty string; for the text
`aaaa` the artifact of `compress` has no payload byte and `decompress` returns
the empty text instead of `aaaa`. -/
theorem single_symbol_gets_empty_code :
    (∀ (c : Char) (f : Int), buildHuffmanTree [(c, f)] = Outcome.returns (Node.new c f) ∧
      buildCodes (Node.new c f) [] [] = [(c, [])]) ∧
    countFrequency "aaaa".toList = [('a', 4)] ∧
    compress id "aaaa".toList = Outcome.returns "1\na 4\n0\n".toList ∧
    decompress "1\na 4\n0\n".toList = Outcome.returns [] := by
  refine ⟨fun c f => ⟨rfl, ?_⟩, by decide, by decide, by decide⟩
  simp [buildCodes, Node.new, CodeMap.assign]

/-- C6 fails at the text `abababab`: its code bit stream has length 8, a
positive multiple of 8, and the count line `compress` writes is `0`, not `8`. -/
theorem aligned_stream_persists_zero :
    buildHuffmanTree (countFrequency "abababab".toList)
      = Outcome.returns (Node.mk '0' 8 (Node.new 'a' 4) (Node.new 'b' 4)) ∧
    (encodeText (buildCodes (Node.mk '0' 8 (Node.new 'a' 4) (Node.new 'b' 4)) [] [])
      "abababab".toList).length = 8 ∧
    persistedCount (encodeText (buildCodes (Node.mk '0' 8 (Node.new 'a' 4) (Node.new 'b' 4))
      [] []) "abababab".toList) ≠ 8 ∧
    compress id "abababab".toList = Outcome.returns "2\na 4\nb 4\n0\nU".toList := by
  decide

/-- C6 as amended: whenever `compress` returns, the count line it writes is the
length of the code bit stream modulo 8; for a length that is a multiple of 8
this count is 0 and no padding bit is appended. -/
theorem persisted_count_is_length_mod_eight (order : List (Char × Int) → List (Char × Int))
    (text file : List Char) (h : compress order text = Outcome.returns file) :
    ∃ root encodedString, buildHuffmanTree (order (countFrequency text)) = Outcome.returns root ∧
      encodedString = encodeText (buildCodes root [] []) text ∧
      persistedCount encodedString = ((encodedString.length % 8 : Nat) : Int) ∧
      file = showInt (order (countFrequency text)).length ++ ['\n']
        ++ writeEntries (order (countFrequency text))
        ++ showInt ((encodedString.length % 8 : Nat) : Int) ++ ['\n']
        ++ writeBytes (padBits encodedString) ((padBits encodedString).length / 8 + 1) 0 ∧
      (encodedString.length % 8 = 0 →
        persistedCount encodedString = 0 ∧ padBits encodedString = encodedString) := by
  unfold compress compressWith at h
  cases hb : buildHuffmanTree (order (countFrequency text)) with
  | undefined => rw [hb] at h; cases h
  | returns root =>
    rw [hb] at h
    simp only [Outcome.returns.injEq] at h
    have hcount : ∀ s : List Char, persistedCount s = ((s.length % 8 : Nat) : Int) := by
      intro s; simp only [persistedCount]; omega
    refine ⟨root, _, rfl, rfl, hcount _, ?_, ?_⟩
    · rw [← h, hcount]
    · intro h0
      refine ⟨by rw [hcount, h0]; rfl, ?_⟩
      unfold padBits
      simp [h0]

/-- C7 fails at the text `abbcccabbcccb`: its artifact decompresses to the
text, and with the last payload byte removed the bits left end in the middle
of the path of `a` (code `10`), yet `decompress` returns the text `abbccca` and
`decode` returns on the bare unfinished path `1`. -/
theorem truncated_stream_returns_text :
    compress id "abbcccabbcccb".toList
      = Outcome.returns ("3\na 2\nb 5\nc 6\n4\n".toList ++ [Char.ofNat 188, '^', '0']) ∧
    decompress ("3\na 2\nb 5\nc 6\n4\n".toList ++ [Char.ofNat 188, '^', '0'])
      = Outcome.returns "abbcccabbcccb".toList ∧
    decompress ("3\na 2\nb 5\nc 6\n4\n".toList ++ [Char.ofNat 188, '^'])
      = Outcome.returns "abbccca".toList ∧
    buildHuffmanTree [('a', 2), ('b', 5), ('c', 6)]
      = Outcome.returns (Node.mk '0' 13 (Node.new 'c' 6)
          (Node.mk '0' 7 (Node.new 'a' 2) (Node.new 'b' 5))) ∧
    stripPadding (readBits { rest := [Char.ofNat 188, '^'], fail := false }) 4
      = "101111000101".toList ∧
    decode (Node.mk '0' 13 (Node.new 'c' 6) (Node.mk '0' 7 (Node.new 'a' 2) (Node.new 'b' 5)))
      "101111000101".toList = Outcome.returns "abbccca".toList ∧
    decode (Node.mk '0' 13 (Node.new 'c' 6) (Node.mk '0' 7 (Node.new 'a' 2) (Node.new 'b' 5)))
      "1".toList = Outcome.returns [] := by
  decide

/-- C8, evaluated: `buildHuffmanTree` on a table without entries reads the top
of the empty queue, which is undefined behaviour and not an error that is
reported; so does `compress` on the empty text. -/
theorem empty_table_is_undefined :
    fillHeap [] = [] ∧ top (mergeLoop 0 []) = none ∧
    buildHuffmanTree [] = Outcome.undefined ∧
    countFrequency [] = [] ∧ compress id [] = Outcome.undefined := by
  decide

/-- C9 (determinism): when the `unordered_map` of `compress` and the vector of
`decompress` hold the same pairs in the same order, the two instances of the
template `buildHuffmanTree`, run with any two sequences of addresses for their
`new Node` objects, are undefined together or return pointers to identical
trees, for which `buildCodes` makes identical code tables; the tree is the one
the function on trees returns for the pairs. -/
theorem rebuilt_tree_is_identical (frequency : UnorderedMap) (vector : PairVector)
    (h : frequency.elements = vector.data) (alloc1 alloc2 : Nat → Nat) :
    (buildHuffmanTreeAt alloc1 frequency = Outcome.undefined ↔
      buildHuffmanTreeAt alloc2 vector = Outcome.undefined) ∧
    (∀ root1 root2, buildHuffmanTreeAt alloc1 frequency = Outcome.returns root1 →
      buildHuffmanTreeAt alloc2 vector = Outcome.returns root2 →
      root1.tree = root2.tree ∧ buildCodesAt root1 [] [] = buildCodesAt root2 [] []) ∧
    (∀ root1, buildHuffmanTreeAt alloc1 frequency = Outcome.returns root1 →
      buildHuffmanTree frequency.elements = Outcome.returns root1.tree ∧
      buildCodesAt root1 [] [] = buildCodes root1.tree [] []) := by
  have e1 := buildHuffmanTreeAt_tree alloc1 frequency
  have e2 := buildHuffmanTreeAt_tree alloc2 vector
  have hp : (PairRange.pairs vector : List (Char × Int)) = PairRange.pairs frequency := h.symm
  rw [hp] at e2
  refine ⟨?_, ?_, ?_⟩
  · cases h1 : buildHuffmanTreeAt alloc1 frequency with
    | returns r1 =>
      cases h2 : buildHuffmanTreeAt alloc2 vector with
      | returns r2 => simp
      | undefined => rw [h1] at e1; rw [h2] at e2; rw [← e2] at e1; cases e1
    | undefined =>
      cases h2 : buildHuffmanTreeAt alloc2 vector with
      | returns r2 => rw [h1] at e1; rw [h2] at e2; rw [← e2] at e1; cases e1
      | undefined => simp
  · intro root1 root2 h1 h2
    rw [h1] at e1
    rw [h2] at e2
    rw [← e2] at e1
    simp only [Outcome.returns.injEq] at e1
    refine ⟨e1, ?_⟩
    rw [buildCodesAt_tree, buildCodesAt_tree, e1]
  · intro root1 h1
    rw [h1] at e1
    exact ⟨e1.symm, buildCodesAt_tree root1 [] []⟩

/-! ## Instances -/

/-- Witness of C2 on the table a=2, b=2, `_`=1. -/
theorem prefix_free_codes_witness :
    ([('a', 2), ('b', 2), ('_', 1)] : List (Char × Int)) ≠ [] ∧
    (([('a', 2), ('b', 2), ('_', 1)] : List (Char × Int)).map Prod.fst).Nodup ∧
    ∃ root, buildHuffmanTree [('a', 2), ('b', 2), ('_', 1)] = Outcome.returns root ∧
      ∀ a b, a ∈ ([('a', 2), ('b', 2), ('_', 1)] : List (Char × Int)).map Prod.fst →
        b ∈ ([('a', 2), ('b', 2), ('_', 1)] : List (Char × Int)).map Prod.fst → a ≠ b →
        ∃ ca cb, (buildCodes root [] []).lookup a = some ca ∧
          (buildCodes root [] []).lookup b = some cb ∧ ¬ ca <+: cb ∧ ¬ cb <+: ca :=
  ⟨by decide, by decide, prefix_free_codes _ (by decide) (by decide)⟩

/-- Witness of C3 on the table a=2, b=2, `_`=1: the weighted path length 8 of
the built tree is least. -/
theorem huffman_optimal_witness :
    (∀ e ∈ ([('a', 2), ('b', 2), ('_', 1)] : List (Char × Int)), 0 < e.2) ∧
    (([('a', 2), ('b', 2), ('_', 1)] : List (Char × Int)).map Prod.snd).sum ≤ 2147483647 ∧
    ∀ t : Node, t.leaves.Perm [('a', 2), ('b', 2), ('_', 1)] → 8 ≤ t.wpl 0 := by
  refine ⟨by decide, by decide, ?_⟩
  obtain ⟨root, h1, _, h3, _⟩ :=
    huffman_optimal [('a', 2), ('b', 2), ('_', 1)] (by decide) (by decide) (by decide)
  have hr : buildHuffmanTree [('a', 2), ('b', 2), ('_', 1)]
      = Outcome.returns (Node.mk '0' 5 (Node.new 'a' 2)
          (Node.mk '0' 3 (Node.new '_' 1) (Node.new 'b' 2))) := by decide
  rw [hr] at h1
  cases h1
  intro t ht
  have := h3 t ht
  have h8 : (Node.mk '0' 5 (Node.new 'a' 2)
      (Node.mk '0' 3 (Node.new '_' 1) (Node.new 'b' 2))).wpl 0 = 8 := by decide
  rwa [h8] at this

/-- Witness of C4 with the table iterated in the order of first occurrence. -/
theorem example_ab_ba_witness :
    ∃ file, compress id "ab ba".toList = Outcome.returns file ∧
      decompress file = Outcome.returns "ab ba".toList :=
  (example_ab_ba id (List.Perm.refl _)).2

/-- Witness of C6 as amended on the text `abababab`. -/
theorem persisted_count_witness :
    ∃ root encodedString,
      buildHuffmanTree (countFrequency "abababab".toList) = Outcome.returns root ∧
      encodedString = encodeText (buildCodes root [] []) "abababab".toList ∧
      persistedCount encodedString = ((encodedString.length % 8 : Nat) : Int) :=
  let ⟨root, enc, h1, h2, h3, _⟩ := persisted_count_is_length_mod_eight id
    "abababab".toList "2\na 4\nb 4\n0\nU".toList (by decide)
  ⟨root, enc, h1, h2, h3⟩

/-- Witness of C7 as amended: the bits of `abbccca` followed by the first bit
of the code of `a`. -/
theorem decode_drops_unfinished_path_witness :
    decode (Node.mk '0' 13 (Node.new 'c' 6) (Node.mk '0' 7 (Node.new 'a' 2) (Node.new 'b' 5)))
      ("10111100010".toList ++ ['1']) = Outcome.returns "abbccca".toList := by
  obtain ⟨root, h1, h2⟩ := decode_drops_unfinished_path [('a', 2), ('b', 5), ('c', 6)]
    (by decide) (by decide) "abbccca".toList (by decide) 'a' (by decide)
  have hr : buildHuffmanTree [('a', 2), ('b', 5), ('c', 6)]
      = Outcome.returns (Node.mk '0' 13 (Node.new 'c' 6)
          (Node.mk '0' 7 (Node.new 'a' 2) (Node.new 'b' 5))) := by decide
  rw [hr] at h1
  cases h1
  exact h2 ['1'] ['0'] (by decide) (by decide)

/-- Witness of C9 on the table a=2, b=2, `_`=1, built once at the addresses
4096, 4128, ... and once at 100, 200, ...: the pointers differ, the trees are
the same. -/
theorem rebuilt_tree_is_identical_witness :
    ∃ root1 root2,
      buildHuffmanTreeAt (fun k => 4096 + 32 * k)
        (UnorderedMap.mk [('a', 2), ('b', 2), ('_', 1)]) = Outcome.returns root1 ∧
      buildHuffmanTreeAt (fun k => 100 * (k + 1))
        (PairVector.mk [('a', 2), ('b', 2), ('_', 1)]) = Outcome.returns root2 ∧
      root1 ≠ root2 ∧ root1.tree = root2.tree :=
  ⟨NodeAt.obj 4224 '0' 5 (NodeAt.obj 4096 'a' 2 NodeAt.nullptr NodeAt.nullptr)
      (NodeAt.obj 4192 '0' 3 (NodeAt.obj 4160 '_' 1 NodeAt.nullptr NodeAt.nullptr)
        (NodeAt.obj 4128 'b' 2 NodeAt.nullptr NodeAt.nullptr)),
    NodeAt.obj 500 '0' 5 (NodeAt.obj 100 'a' 2 NodeAt.nullptr NodeAt.nullptr)
      (NodeAt.obj 400 '0' 3 (NodeAt.obj 300 '_' 1 NodeAt.nullptr NodeAt.nullptr)
        (NodeAt.obj 200 'b' 2 NodeAt.nullptr NodeAt.nullptr)),
    by decide, by decide, by decide,
    ((rebuilt_tree_is_identical (UnorderedMap.mk [('a', 2), ('b', 2), ('_', 1)])
      (PairVector.mk [('a', 2), ('b', 2), ('_', 1)]) rfl (fun k => 4096 + 32 * k)
      (fun k => 100 * (k + 1))).2.1 _ _ (by decide) (by decide)).1⟩

/-- Witness of C10 on the tree of the table a=2, b=2, `_`=1. -/
theorem code_table_paths_witness :
    (buildCodes (Node.mk '0' 5 (Node.new 'a' 2)
        (Node.mk '0' 3 (Node.new '_' 1) (Node.new 'b' 2))) [] []).lookup 'b'
      = some ['1', '1'] :=
  ((code_table_paths (Node.mk '0' 5 (Node.new 'a' 2)
      (Node.mk '0' 3 (Node.new '_' 1) (Node.new 'b' 2))) (by decide)
      [('a', 2), ('b', 2), ('_', 1)] (by decide)).2.1 'b' ['1', '1']).mpr (by decide)

/-! ## The merge loop step by step and the walk of decode -/

/-! ### The merge loop, iteration by iteration -/

theorem mergeLoop_short (k : Nat) (h : List Node) (hl : h.length ≤ 1) : mergeLoop k h = h := by
  cases k with
  | zero => rfl
  | succ k =>
    have : ¬ h.length > 1 := by omega
    simp only [mergeLoop, if_neg this]

/-- One iteration of the loop on a heap with more than one element. -/
theorem mergeLoop_one (h : List Node) (hh : IsHeap Node.freq h h.length)
    (h1 : h.length > 1) :
    (∀ k, mergeLoop (k + 1) h = mergeLoop k (mergeLoop 1 h)) ∧
      IsHeap Node.freq (mergeLoop 1 h) (mergeLoop 1 h).length ∧
      (mergeLoop 1 h).length + 1 = h.length := by
  obtain ⟨left, hleft⟩ : ∃ left, top h = some left := by
    cases h with
    | nil => simp at h1
    | cons a _ => exact ⟨a, rfl⟩
  obtain ⟨q1, q2⟩ := pop_spec h left hleft hh
  have hlen1 : (pop h).length + 1 = h.length := by
    have := q2.length_eq; simpa using this
  obtain ⟨right, hright⟩ : ∃ right, top (pop h) = some right := by
    cases hp : pop h with
    | nil => rw [hp] at hlen1; simp at hlen1; omega
    | cons a _ => exact ⟨a, rfl⟩
  obtain ⟨r1, r2⟩ := pop_spec (pop h) right hright q1
  have hlen2 : (pop (pop h)).length + 1 = (pop h).length := by
    have := r2.length_eq; simpa using this
  obtain ⟨s1, s2⟩ := push_spec (pop (pop h))
    (Node.mk '0' (wrapInt (left.freq + right.freq)) left right) r1
  have hone : mergeLoop 1 h
      = push (pop (pop h)) (Node.mk '0' (wrapInt (left.freq + right.freq)) left right) := by
    simp only [mergeLoop, if_pos h1, hleft, hright]
  refine ⟨?_, ?_, ?_⟩
  · intro k
    rw [hone]
    simp only [mergeLoop, if_pos h1, hleft, hright]
  · rw [hone]; exact s1
  · rw [hone]
    have := s2.length_eq
    simp only [List.length_cons] at this
    omega

/-- After `k` iterations, while the loop has not ended, the queue holds `k`
trees less. -/
theorem mergeLoop_length : ∀ (k : Nat) (h : List Node), IsHeap Node.freq h h.length →
    k + 1 ≤ h.length → (mergeLoop k h).length = h.length - k := by
  intro k
  induction k with
  | zero => intro h _ _; rfl
  | succ k ih =>
    intro h hh hk
    obtain ⟨e1, e2, e3⟩ := mergeLoop_one h hh (by omega)
    rw [e1 k, ih _ e2 (by omega)]
    omega

/-- Iterations compose: `a + b` iterations are `a` iterations followed by `b`. -/
theorem mergeLoop_add : ∀ (a b : Nat) (h : List Node), IsHeap Node.freq h h.length →
    mergeLoop (a + b) h = mergeLoop b (mergeLoop a h) := by
  intro a
  induction a with
  | zero => intro b h _; simp [mergeLoop]
  | succ a ih =>
    intro b h hh
    by_cases h1 : h.length > 1
    · obtain ⟨e1, e2, _⟩ := mergeLoop_one h hh h1
      have : a + 1 + b = (a + b) + 1 := by omega
      rw [this, e1 (a + b), e1 a, ih b _ e2]
    · rw [mergeLoop_short _ h (by omega), mergeLoop_short _ h (by omega),
        mergeLoop_short _ h (by omega)]

/-! ### The walk of decode stays on the tree -/

/-- A full node that has a child has two full children. -/
theorem internal_children (ch : Char) (f : Int) (l r : Node)
    (hfull : (Node.mk ch f l r).Full) (hnl : ¬ (l = Node.nullptr ∧ r = Node.nullptr)) :
    l.Full ∧ r.Full := by
  rcases hfull with h | h
  · exact absurd h hnl
  · exact h

theorem decode_walk_total (root : Node) (hroot : root.Full)
    (hri : ¬ (root.left = Node.nullptr ∧ root.right = Node.nullptr)) :
    ∀ (bits : List Char) (cur : Node) (acc : List Char), cur.Full →
      ¬ (cur.left = Node.nullptr ∧ cur.right = Node.nullptr) →
      ∃ last text, currentNodeAfter root bits cur = Outcome.returns last ∧
        last.Full ∧ last.left ≠ Node.nullptr ∧ last.right ≠ Node.nullptr ∧
        decodeLoop root bits cur acc = Outcome.returns text := by
  intro bits
  induction bits with
  | nil =>
    intro cur acc hfull hint
    cases cur with
    | nullptr => exact absurd hfull id
    | mk ch f l r =>
      obtain ⟨hl, hr⟩ := internal_children ch f l r hfull hint
      exact ⟨_, acc, rfl, hfull, hl.not_null, hr.not_null, rfl⟩
  | cons bit rest ih =>
    intro cur acc hfull hint
    cases cur with
    | nullptr => exact absurd hfull id
    | mk ch f l r =>
      obtain ⟨hl, hr⟩ := internal_children ch f l r hfull hint
      have hchild : (if bit = '0' then l else r).Full := by
        split_ifs
        · exact hl
        · exact hr
      cases hc : (if bit = '0' then l else r) with
      | nullptr => rw [hc] at hchild; exact absurd hchild id
      | mk ch2 f2 l2 r2 =>
        rw [hc] at hchild
        simp only [currentNodeAfter, decodeLoop, hc]
        by_cases hleaf : l2 = Node.nullptr ∧ r2 = Node.nullptr
        · simp only [if_pos hleaf]
          exact ih root _ hroot hri
        · simp only [if_neg hleaf]
          exact ih _ acc hchild hleaf

theorem root_internal_of_length (t : Node) (h : 2 ≤ t.leaves.length) :
    ¬ (t.left = Node.nullptr ∧ t.right = Node.nullptr) := by
  cases t with
  | nullptr => simp [Node.leaves] at h
  | mk ch f l r =>
    intro hleaf
    simp only [Node.left, Node.right] at hleaf
    simp [Node.leaves, if_pos hleaf] at h

/-- The walk over two strings of bits in a row passes through the node the
first string leads to. -/
theorem currentNodeAfter_append (root : Node) : ∀ (first second : List Char) (cur : Node),
    currentNodeAfter root (first ++ second) cur
      = match currentNodeAfter root first cur with
        | Outcome.returns mid => currentNodeAfter root second mid
        | Outcome.undefined => Outcome.undefined := by
  intro first
  induction first with
  | nil => intro second cur; rfl
  | cons bit rest ih =>
    intro second cur
    cases cur with
    | nullptr => rfl
    | mk ch f l r =>
      simp only [List.cons_append, currentNodeAfter]
      cases (if bit = '0' then l else r) with
      | nullptr => rfl
      | mk ch2 f2 l2 r2 =>
        simp only
        split_ifs
        · exact ih second root
        · exact ih second _

/-! ## Shape of the tree, order of feeding, decoding -/

/-- C16 (bit-level decode inverts encode): for a table with at least two
entries and distinct symbols, `buildHuffmanTree` returns a tree for which
`decode`, applied to the concatenated `buildCodes` codes of any sequence of
symbols of the table, returns that sequence with every `_` replaced by a
space. -/
theorem decode_inverts_encode (frequency : List (Char × Int))
    (h2 : 2 ≤ frequency.length) (hnd : (frequency.map Prod.fst).Nodup)
    (syms : List Char) (hs : ∀ s ∈ syms, s ∈ frequency.map Prod.fst) :
    ∃ root, buildHuffmanTree frequency = Outcome.returns root ∧
      decode root (syms.flatMap (buildCodes root [] []).at)
        = Outcome.returns (syms.map (fun s => if s = '_' then ' ' else s)) := by
  have hne : frequency ≠ [] := by
    intro e; rw [e] at h2; simp at h2
  obtain ⟨root, e1, _, e3, _⟩ := buildHuffmanTree_spec frequency hne
  have hsym : (root.leaves.map Prod.fst).Perm (frequency.map Prod.fst) := e3.map _
  have hnd2 : (root.leaves.map Prod.fst).Nodup := hsym.nodup_iff.mpr hnd
  have hroot : root.leafAt [] = none :=
    leafAt_nil_of_length root (by rw [e3.length_eq]; exact h2)
  refine ⟨root, e1, ?_⟩
  have := decodeLoop_codes root hnd2 hroot syms [] []
    (fun s h => hsym.symm.subset (hs s h))
  simpa [decode, decodeLoop] using this

/-- C17 fails on the table a = 2147483647, b = 1: the `int` sum of the two
weights wraps, and the root returned has the weight `-2147483648`, not the sum
2147483648 of the counts (nor the sum of the weights of its children). -/
theorem overflow_breaks_root_weight :
    buildHuffmanTree [('a', 2147483647), ('b', 1)]
      = Outcome.returns
          (Node.mk '0' (-2147483648) (Node.new 'b' 1) (Node.new 'a' 2147483647)) ∧
    (Node.mk '0' (-2147483648) (Node.new 'b' 1) (Node.new 'a' 2147483647)).freq
      ≠ (([('a', 2147483647), ('b', 1)] : List (Char × Int)).map Prod.snd).sum ∧
    (Node.mk '0' (-2147483648) (Node.new 'b' 1) (Node.new 'a' 2147483647)).freq
      ≠ (Node.new 'b' 1).freq + (Node.new 'a' 2147483647).freq := by
  decide

/-- C17 as amended (tree shape): for a table with `n ≥ 1` entries the merge
loop stops after exactly `n - 1` iterations (after `k ≤ n - 1` iterations the
queue holds `n - k` trees), and `buildHuffmanTree` returns the single tree left: every
node of it has no child or two children, the `freq` of every node with children
is the `int` sum (32 bits, wrapping) of the `freq` of the two, and its leaves
are the entries of the table; when the counts are not negative and their sum
is at most `2^31 - 1`, no sum wraps: the `freq` of every node with children is
the sum of the `freq` of the two and the `freq` of the root is the sum of all
counts. -/
theorem tree_shape (frequency : List (Char × Int)) (hne : frequency ≠ []) :
    ∃ root, buildHuffmanTree frequency = Outcome.returns root ∧
      (∀ k, k + 1 ≤ frequency.length →
        (mergeLoop k (fillHeap frequency)).length = frequency.length - k) ∧
      mergeLoop (frequency.length - 1) (fillHeap frequency) = [root] ∧
      root.Full ∧ root.IntSums ∧ root.leaves.Perm frequency ∧
      ((∀ e ∈ frequency, 0 ≤ e.2) → (frequency.map Prod.snd).sum ≤ 2147483647 →
        root.WellFormed ∧ root.freq = (frequency.map Prod.snd).sum) := by
  obtain ⟨root, e1, e2, e3, e4⟩ := buildHuffmanTree_spec frequency hne
  obtain ⟨f1, f2⟩ := fillHeap_spec frequency
  have hlen : (fillHeap frequency).length = frequency.length := by
    have := f2.length_eq; simpa using this
  have hpos : 0 < frequency.length := List.length_pos.mpr hne
  refine ⟨root, e1, ?_, ?_, e2, buildHuffmanTree_intSums frequency root e1, e3, ?_⟩
  · intro k hk
    rw [mergeLoop_length k _ f1 (by omega), hlen]
  · have hfull : mergeLoop (fillHeap frequency).length (fillHeap frequency) = [root] := by
      have := e1
      simp only [buildHuffmanTree] at this
      cases hm : mergeLoop (fillHeap frequency).length (fillHeap frequency) with
      | nil => rw [hm] at this; simp [top] at this
      | cons a t =>
        have hl := mergeLoop_length (frequency.length - 1) _ f1 (by omega)
        have hadd := mergeLoop_add (frequency.length - 1) 1 _ f1
        have h1 : frequency.length - 1 + 1 = (fillHeap frequency).length := by omega
        rw [h1, hm] at hadd
        rw [hlen] at hl
        have hshort := mergeLoop_short 1 (mergeLoop (frequency.length - 1) (fillHeap frequency))
          (by omega)
        rw [hshort] at hadd
        rw [← hadd] at hl
        rw [hm] at this
        simp only [top, List.head?_cons, Outcome.returns.injEq] at this
        subst this
        match t, hl with
        | [], _ => rfl
        | b :: t, hl => simp at hl; omega
    have hadd := mergeLoop_add (frequency.length - 1) 1 _ f1
    have h1 : frequency.length - 1 + 1 = (fillHeap frequency).length := by omega
    rw [h1, hfull] at hadd
    have hl := mergeLoop_length (frequency.length - 1) _ f1 (by omega)
    rw [mergeLoop_short 1 _ (by rw [hl, hlen]; omega)] at hadd
    exact hadd.symm
  · intro h0 hsum
    obtain ⟨w1, _⟩ := e4 h0 hsum
    refine ⟨w1, ?_⟩
    rw [← weight_eq_freq root w1]
    exact ((e3.map Prod.snd).sum_eq)

/-- C19 fails on the table a=1, b=1: fed as a, b the code of `a` is `0`, fed
as b, a the code of `a` is `1`. -/
theorem feeding_order_changes_codes :
    ([('a', 1), ('b', 1)] : List (Char × Int)).Perm [('b', 1), ('a', 1)] ∧
    buildHuffmanTree [('a', 1), ('b', 1)]
      = Outcome.returns (Node.mk '0' 2 (Node.new 'a' 1) (Node.new 'b' 1)) ∧
    buildHuffmanTree [('b', 1), ('a', 1)]
      = Outcome.returns (Node.mk '0' 2 (Node.new 'b' 1) (Node.new 'a' 1)) ∧
    (buildCodes (Node.mk '0' 2 (Node.new 'a' 1) (Node.new 'b' 1)) [] []).lookup 'a'
      = some ['0'] ∧
    (buildCodes (Node.mk '0' 2 (Node.new 'b' 1) (Node.new 'a' 1)) [] []).lookup 'a'
      = some ['1'] :=
  ⟨List.Perm.swap _ _ _, by decide, by decide, by decide, by decide⟩

/-- When sums of weights overflow, the weighted path length depends on the
order of feeding as well: the table with ten counts `2^30`, two counts `2^29`
and two counts `3 * 2^29` gets a tree of cost 77846282240, and fed in the
reverse order a tree of cost 86436216832. -/
theorem overflow_changes_cost :
    (match buildHuffmanTree
      [('a', 1073741824), ('b', 1073741824), ('c', 1073741824), ('d', 1073741824),
       ('e', 1073741824), ('f', 1073741824), ('g', 1073741824), ('h', 1073741824),
       ('i', 1073741824), ('j', 1073741824), ('k', 536870912), ('l', 536870912),
       ('m', 1610612736), ('n', 1610612736)] with
      | Outcome.returns root => some (root.wpl 0)
      | Outcome.undefined => none) = some 77846282240 ∧
    (match buildHuffmanTree
      [('n', 1610612736), ('m', 1610612736), ('l', 536870912), ('k', 536870912),
       ('j', 1073741824), ('i', 1073741824), ('h', 1073741824), ('g', 1073741824),
       ('f', 1073741824), ('e', 1073741824), ('d', 1073741824), ('c', 1073741824),
       ('b', 1073741824), ('a', 1073741824)] with
      | Outcome.returns root => some (root.wpl 0)
      | Outcome.undefined => none) = some 86436216832 := by
  decide

/-- C19 as amended: for two orderings of the same entries, `buildHuffmanTree`
returns trees with the same leaves, and, for positive counts whose sum is at
most `2^31 - 1`, with the same weighted path length; the code tables need not
be equal. -/
theorem feeding_order_keeps_cost (frequency1 frequency2 : List (Char × Int))
    (hperm : frequency1.Perm frequency2) (hne : frequency1 ≠ []) :
    ∃ root1 root2, buildHuffmanTree frequency1 = Outcome.returns root1 ∧
      buildHuffmanTree frequency2 = Outcome.returns root2 ∧
      root1.leaves.Perm root2.leaves ∧
      ((∀ e ∈ frequency1, 0 < e.2) → (frequency1.map Prod.snd).sum ≤ 2147483647 →
        root1.wpl 0 = root2.wpl 0) := by
  have hne2 : frequency2 ≠ [] := by
    intro e; rw [e] at hperm; exact hne (List.perm_nil.mp hperm)
  obtain ⟨root1, a1, _, a3, _⟩ := buildHuffmanTree_spec frequency1 hne
  obtain ⟨root2, b1, _, b3, _⟩ := buildHuffmanTree_spec frequency2 hne2
  refine ⟨root1, root2, a1, b1, a3.trans (hperm.trans b3.symm), ?_⟩
  intro hpos hsum
  have hpos1 : ∀ e ∈ frequency1, 0 ≤ e.2 := fun e he => le_of_lt (hpos e he)
  have hpos2 : ∀ e ∈ frequency2, 0 ≤ e.2 := fun e he => hpos1 e (hperm.symm.subset he)
  have hsum2 : (frequency2.map Prod.snd).sum ≤ 2147483647 := by
    rw [← (hperm.map Prod.snd).sum_eq]; exact hsum
  apply le_antisymm
  · exact buildHuffmanTree_le frequency1 hne hpos1 hsum root1 a1 root2 (b3.trans hperm.symm)
  · exact buildHuffmanTree_le frequency2 hne2 hpos2 hsum2 root2 b1 root1 (a3.trans hperm)

/-- C20 (decode never walks off the tree): for a table with at least two
entries `buildHuffmanTree` returns a tree on which, for every string of bits,
`decode` returns a string, and at the start of every iteration (after any
first part of the bits) the current node of the walk has two children, so that
the step reaches an existing child whatever the next bit is. -/
theorem decode_stays_on_tree (frequency : List (Char × Int)) (h2 : 2 ≤ frequency.length) :
    ∃ root, buildHuffmanTree frequency = Outcome.returns root ∧
      (∀ bits : List Char, ∃ text, decode root bits = Outcome.returns text) ∧
      ∀ first second : List Char, ∃ mid,
        currentNodeAfter root first root = Outcome.returns mid ∧
        mid.left ≠ Node.nullptr ∧ mid.right ≠ Node.nullptr ∧
        currentNodeAfter root (first ++ second) root = currentNodeAfter root second mid := by
  have hne : frequency ≠ [] := by
    intro e; rw [e] at h2; simp at h2
  obtain ⟨root, e1, e2, e3, _⟩ := buildHuffmanTree_spec frequency hne
  have hri := root_internal_of_length root (by rw [e3.length_eq]; exact h2)
  refine ⟨root, e1, ?_, ?_⟩
  · intro bits
    obtain ⟨_, text, _, _, _, _, w5⟩ := decode_walk_total root e2 hri bits root [] e2 hri
    exact ⟨text, w5⟩
  · intro first second
    obtain ⟨mid, _, w1, _, w3, w4, _⟩ := decode_walk_total root e2 hri first root [] e2 hri
    refine ⟨mid, w1, w3, w4, ?_⟩
    rw [currentNodeAfter_append, w1]

/-! ## The frequency table -/

/-! ### Counting -/

/-- The file `compress` returns, part by part. -/
theorem compress_returns (order : List (Char × Int) → List (Char × Int))
    (text file : List Char) (h : compress order text = Outcome.returns file) :
    ∃ root, buildHuffmanTree (order (countFrequency text)) = Outcome.returns root ∧
      file = showInt (order (countFrequency text)).length ++ ['\n']
        ++ writeEntries (order (countFrequency text))
        ++ showInt (persistedCount (encodeText (buildCodes root [] []) text)) ++ ['\n']
        ++ writeBytes (padBits (encodeText (buildCodes root [] []) text))
            ((padBits (encodeText (buildCodes root [] []) text)).length / 8 + 1) 0 := by
  unfold compress compressWith at h
  cases hb : buildHuffmanTree (order (countFrequency text)) with
  | undefined => rw [hb] at h; cases h
  | returns root =>
    rw [hb] at h
    simp only [Outcome.returns.injEq] at h
    exact ⟨root, rfl, h.symm⟩

theorem padBits_eq (encodedString : List Char) :
    padBits encodedString
      = encodedString ++ List.replicate ((8 - encodedString.length % 8) % 8) '0' := by
  unfold padBits
  by_cases h : encodedString.length % 8 = 0
  · simp [h]
  · have h1 : 8 - encodedString.length % 8 ≠ 8 := by omega
    have h2 : (8 - encodedString.length % 8) % 8 = 8 - encodedString.length % 8 := by omega
    simp only [h1, ne_eq, not_false_eq_true, if_true, h2]

/-- C11 (padding formula): `compress` appends exactly `(8 - L mod 8) mod 8`
characters `'0'` to a code bit stream of length `L`: the padded stream has a
length that is a multiple of 8, starts with the original stream, and is the
original stream when `L` is a multiple of 8; the packed bytes `compress` writes
are those of this padded stream. -/
theorem padding_formula (encodedString : List Char) :
    padBits encodedString
      = encodedString ++ List.replicate ((8 - encodedString.length % 8) % 8) '0' ∧
    (padBits encodedString).length % 8 = 0 ∧
    encodedString <+: padBits encodedString ∧
    (encodedString.length % 8 = 0 → padBits encodedString = encodedString) ∧
    ∀ (order : List (Char × Int) → List (Char × Int)) (text file : List Char),
      compress order text = Outcome.returns file →
      ∃ root header, buildHuffmanTree (order (countFrequency text)) = Outcome.returns root ∧
        file = header ++ writeBytes
          (encodeText (buildCodes root [] []) text ++ List.replicate
            ((8 - (encodeText (buildCodes root [] []) text).length % 8) % 8) '0')
          ((encodeText (buildCodes root [] []) text ++ List.replicate
            ((8 - (encodeText (buildCodes root [] []) text).length % 8) % 8) '0').length
            / 8 + 1) 0 := by
  refine ⟨padBits_eq _, ?_, ?_, ?_, ?_⟩
  · rw [padBits_eq]
    simp only [List.length_append, List.length_replicate]
    omega
  · rw [padBits_eq]; exact List.prefix_append _ _
  · intro h
    rw [padBits_eq]
    simp [h]
  · intro order text file h
    obtain ⟨root, e1, e2⟩ := compress_returns order text file h
    refine ⟨root, showInt (order (countFrequency text)).length ++ ['\n']
        ++ writeEntries (order (countFrequency text))
        ++ showInt (persistedCount (encodeText (buildCodes root [] []) text)) ++ ['\n'],
      e1, ?_⟩
    rw [e2, padBits_eq]

/-! ## Packing and unpacking -/

theorem bit_value (x : Nat) :
    (if (if x % 2 = 1 then '1' else '0') = '1' then 1 else 0) = x % 2 := by
  rcases Nat.mod_two_eq_zero_or_one x with h | h <;> simp [h]

theorem byteBits_value (b : Char) :
    (byteBits b).length = 8 ∧ bitsetValue (byteBits b) = b.toNat % 256 := by
  constructor
  · simp [byteBits]
  · have h8 : List.range 8 = [0, 1, 2, 3, 4, 5, 6, 7] := by decide
    simp only [byteBits, bitsetValue, h8, List.map_cons, List.map_nil, List.foldl_cons,
      List.foldl_nil, bit_value]
    generalize b.toNat = n
    norm_num
    omega

theorem length_flatMap_byteBits (bytes : List Char) :
    (bytes.flatMap byteBits).length = 8 * bytes.length := by
  induction bytes with
  | nil => rfl
  | cons b bytes ih =>
    rw [List.flatMap_cons, List.length_append, ih, (byteBits_value b).1, List.length_cons]
    ring

/-- C12, evaluated at the text of eight `a` and eight `b`: the padded bit stream
has 16 bits, so two bytes are due, but the byte of the eight bits `0` is not
written; the payload is the single byte 255 and `decompress` returns only the
eight `b`. -/
theorem zero_byte_is_not_written :
    buildHuffmanTree (countFrequency "aaaaaaaabbbbbbbb".toList)
      = Outcome.returns (Node.mk '0' 16 (Node.new 'a' 8) (Node.new 'b' 8)) ∧
    padBits (encodeText (buildCodes (Node.mk '0' 16 (Node.new 'a' 8) (Node.new 'b' 8)) [] [])
      "aaaaaaaabbbbbbbb".toList) = "0000000011111111".toList ∧
    writeCString (bitsetValue "00000000".toList) = [] ∧
    writeBytes "0000000011111111".toList (16 / 8 + 1) 0 = [Char.ofNat 255] ∧
    compress id "aaaaaaaabbbbbbbb".toList
      = Outcome.returns ("2\na 8\nb 8\n0\n".toList ++ [Char.ofNat 255]) ∧
    decompress ("2\na 8\nb 8\n0\n".toList ++ [Char.ofNat 255])
      = Outcome.returns "bbbbbbbb".toList := by
  decide

/-- C13, evaluated: with the count `m = 2` read from the file and the eight
unpacked bits `01000000`, `decompress` discards two bits (the count itself) and
not the `8 - 2 = 6` padding bits, so `decode` receives `010000`; with `m = 8`
all eight bits are discarded.  The artifact of the text `ab` is decoded to six
characters. -/
theorem count_is_stripped_as_padding :
    byteBits '@' = "01000000".toList ∧
    stripPadding "01000000".toList 2 = "010000".toList ∧
    stripPadding "01000000".toList 2 ≠ "01".toList ∧
    stripPadding "01010101".toList 8 = [] ∧
    compress id "ab".toList = Outcome.returns "2\na 1\nb 1\n2\n@".toList ∧
    decompress "2\na 1\nb 1\n2\n@".toList = Outcome.returns "abaaaa".toList := by
  decide

/-- C14, evaluated at the text `aaaabababbbbbbbb` (a = 6, b = 10, no
tie, 16 bits, nothing to strip), in either iteration order of the table: the
payload `compress` writes is the two bytes 10 and 255, the bit sequence
`decompress` builds from them has the 8 bits of the byte 255 only, the byte 10
being skipped as a newline, and the text returned is `bbbbbbbb`. -/
theorem newline_payload_byte_is_lost :
    compress id "aaaabababbbbbbbb".toList
      = Outcome.returns ("2\na 6\nb 10\n0\n".toList ++ [Char.ofNat 10, Char.ofNat 255]) ∧
    compress List.reverse "aaaabababbbbbbbb".toList
      = Outcome.returns ("2\nb 10\na 6\n0\n".toList ++ [Char.ofNat 10, Char.ofNat 255]) ∧
    readInt { rest := "\n0\n".toList ++ [Char.ofNat 10, Char.ofNat 255], fail := false }
      = ({ rest := '\n' :: [Char.ofNat 10, Char.ofNat 255], fail := false }, some 0) ∧
    readBits { rest := '\n' :: [Char.ofNat 10, Char.ofNat 255], fail := false }
      = "11111111".toList ∧
    readBits { rest := '\n' :: [Char.ofNat 10, Char.ofNat 255], fail := false }
      ≠ [Char.ofNat 10, Char.ofNat 255].flatMap byteBits ∧
    (readBits { rest := '\n' :: [Char.ofNat 10, Char.ofNat 255], fail := false }).length
      ≠ 8 * [Char.ofNat 10, Char.ofNat 255].length ∧
    decompress ("2\na 6\nb 10\n0\n".toList ++ [Char.ofNat 10, Char.ofNat 255])
      = Outcome.returns "bbbbbbbb".toList ∧
    decompress ("2\nb 10\na 6\n0\n".toList ++ [Char.ofNat 10, Char.ofNat 255])
      = Outcome.returns "bbbbbbbb".toList := by
  decide

/-- The artifact of the text `aaaabbcc`: its payload is the two bytes 10 and
240, and the bit sequence `decompress` builds from them has the 8 bits of the
byte 240 only, the byte 10 being skipped as a newline. -/
theorem newline_byte_is_skipped :
    compress id "aaaabbcc".toList
      = Outcome.returns ("3\na 4\nb 2\nc 2\n4\n".toList ++ [Char.ofNat 10, Char.ofNat 240]) ∧
    readEntries 3 (readInt
        { rest := "3\na 4\nb 2\nc 2\n4\n".toList ++ [Char.ofNat 10, Char.ofNat 240],
          fail := false }).1
      = Outcome.returns
          ({ rest := "\n4\n".toList ++ [Char.ofNat 10, Char.ofNat 240], fail := false },
            [('a', 4), ('b', 2), ('c', 2)]) ∧
    readInt { rest := "\n4\n".toList ++ [Char.ofNat 10, Char.ofNat 240], fail := false }
      = ({ rest := '\n' :: [Char.ofNat 10, Char.ofNat 240], fail := false }, some 4) ∧
    readBits { rest := '\n' :: [Char.ofNat 10, Char.ofNat 240], fail := false }
      = "11110000".toList ∧
    (readBits { rest := '\n' :: [Char.ofNat 10, Char.ofNat 240], fail := false }).length
      ≠ 8 * 2 ∧
    decompress ("3\na 4\nb 2\nc 2\n4\n".toList ++ [Char.ofNat 10, Char.ofNat 240])
      = Outcome.returns "cc".toList := by
  decide

/-! ## Unpacking, counting and the header -/

/-- The read loop of `decompress`: the bit sequence built from the bytes after
the line of the count is the concatenation, in order, of the 8 bits, most
significant first, of every payload byte other than 0 and 10 (newline), which
are skipped; it has 8 bits for each byte that is not skipped. -/
theorem unpacking_skips_zero_and_newline (payload : List Char) :
    readBits { rest := '\n' :: payload, fail := false }
      = (payload.filter (fun b => !(b = Char.ofNat 0 || b = '\n'))).flatMap byteBits ∧
    (readBits { rest := '\n' :: payload, fail := false }).length
      = 8 * (payload.filter (fun b => !(b = Char.ofNat 0 || b = '\n'))).length ∧
    ∀ b : Char, (byteBits b).length = 8 ∧ bitsetValue (byteBits b) = b.toNat % 256 := by
  have h : readBits { rest := '\n' :: payload, fail := false }
      = (payload.filter (fun b => !(b = Char.ofNat 0 || b = '\n'))).flatMap byteBits := by
    simp [readBits, List.filter_cons]
  refine ⟨h, ?_, byteBits_value⟩
  rw [h, length_flatMap_byteBits]

/-- C18, evaluated at the text of `a` and a newline: `compress` iterates the
entries a=1, newline=1 and writes them in the header, but the extraction of the
second symbol skips the newline as white space and `decompress` reads back the
entries a=1, `1`=2, from which it builds another tree; it returns the empty
text. -/
theorem newline_symbol_is_not_read_back :
    countFrequency ['a', '\n'] = [('a', 1), ('\n', 1)] ∧
    compress id ['a', '\n'] = Outcome.returns "2\na 1\n\n 1\n2\n@".toList ∧
    readInt { rest := "2\na 1\n\n 1\n2\n@".toList, fail := false }
      = ({ rest := "\na 1\n\n 1\n2\n@".toList, fail := false }, some 2) ∧
    readEntries 2 { rest := "\na 1\n\n 1\n2\n@".toList, fail := false }
      = Outcome.returns ({ rest := "\n@".toList, fail := false }, [('a', 1), ('1', 2)]) ∧
    buildHuffmanTree [('a', 1), ('\n', 1)]
      = Outcome.returns (Node.mk '0' 2 (Node.new 'a' 1) (Node.new '\n' 1)) ∧
    buildHuffmanTree [('a', 1), ('1', 2)]
      = Outcome.returns (Node.mk '0' 3 (Node.new 'a' 1) (Node.new '1' 2)) ∧
    decompress "2\na 1\n\n 1\n2\n@".toList = Outcome.returns [] := by
  decide

/-! ## Further instances -/

/-- Witness of C11: two bits get six padding bits, eight bits get none. -/
theorem padding_formula_witness :
    padBits "01".toList = "01000000".toList ∧
    padBits "01010101".toList = "01010101".toList :=
  ⟨(padding_formula "01".toList).1.trans (by decide),
    (padding_formula "01010101".toList).2.2.2.1 (by decide)⟩

/-- Witness of C16 on the table a=2, b=5, c=6 and the symbols of `abbccca`. -/
theorem decode_inverts_encode_witness :
    decode (Node.mk '0' 13 (Node.new 'c' 6) (Node.mk '0' 7 (Node.new 'a' 2) (Node.new 'b' 5)))
      "10111100010".toList = Outcome.returns "abbccca".toList := by
  obtain ⟨root, h1, h2⟩ := decode_inverts_encode [('a', 2), ('b', 5), ('c', 6)]
    (by decide) (by decide) "abbccca".toList (by decide)
  have hr : buildHuffmanTree [('a', 2), ('b', 5), ('c', 6)]
      = Outcome.returns (Node.mk '0' 13 (Node.new 'c' 6)
          (Node.mk '0' 7 (Node.new 'a' 2) (Node.new 'b' 5))) := by decide
  rw [hr] at h1
  cases h1
  exact h2

/-- Witness of C17 as amended on the table a=2, b=2, `_`=1: two merges, root
weight 5. -/
theorem tree_shape_witness :
    ∃ root, buildHuffmanTree [('a', 2), ('b', 2), ('_', 1)] = Outcome.returns root ∧
      mergeLoop 2 (fillHeap [('a', 2), ('b', 2), ('_', 1)]) = [root] ∧ root.Full ∧
      root.IntSums ∧ root.WellFormed ∧ root.freq = 5 :=
  let ⟨root, h1, _, h3, h4, h5, _, h7⟩ := tree_shape [('a', 2), ('b', 2), ('_', 1)] (by decide)
  ⟨root, h1, h3, h4, h5, (h7 (by decide) (by decide)).1,
    (h7 (by decide) (by decide)).2.trans (by decide)⟩

/-- Witness of C19 as amended on the two orderings of the table a=1, b=1. -/
theorem feeding_order_keeps_cost_witness :
    ∃ root1 root2, buildHuffmanTree [('a', 1), ('b', 1)] = Outcome.returns root1 ∧
      buildHuffmanTree [('b', 1), ('a', 1)] = Outcome.returns root2 ∧
      root1.leaves.Perm root2.leaves ∧ root1.wpl 0 = root2.wpl 0 :=
  let ⟨root1, root2, h1, h2, h3, h4⟩ :=
    feeding_order_keeps_cost [('a', 1), ('b', 1)] [('b', 1), ('a', 1)] (List.Perm.swap _ _ _)
      (by decide)
  ⟨root1, root2, h1, h2, h3, h4 (by decide) (by decide)⟩

/-- Witness of C20 on the table a=2, b=5, c=6. -/
theorem decode_stays_on_tree_witness :
    ∃ root, buildHuffmanTree [('a', 2), ('b', 5), ('c', 6)] = Outcome.returns root ∧
      ∀ bits : List Char, ∃ text, decode root bits = Outcome.returns text :=
  let ⟨root, h1, h2, _⟩ := decode_stays_on_tree [('a', 2), ('b', 5), ('c', 6)] (by decide)
  ⟨root, h1, h2⟩

end Huffman
